import Mathlib

/-!
# Matrix multiplication benchmark (`Task0/src/matrixMul.c`)

A shallow embedding of the initializer, the kernels and the result
comparator of `matrixMul.c`, followed by the properties proved about them.
The timing and averaging of `main` are `double` arithmetic on readings of
`clock()` and are not embedded.

* A `uint64_t [N][N]` array is a map from a row and a column index to a cell
  value (`Matrix`); a store `M[r][c] = v` is `Matrix.set`.
* The macros `N` and `BLOCK_SIZE` are parameters of every definition; the
  values of the source are `N_ref = 1024` and `BLOCK_SIZE = 64`.
* Arithmetic on `uint64_t` is arithmetic on `Nat` reduced modulo `2 ^ 64`.
* The destination of a kernel is passed in and the updated destination is
  returned; sources and destination are separate values, which is the
  non-aliased call of the C functions.
* The library function `rand` is a parameter.
-/

namespace MatrixMul

/-! ## Data model -/

/-- The modulus of `uint64_t` arithmetic. -/
def U64 : Nat := 2 ^ 64

/-- Matrix dimension of the source (`#define N (1024U)`). -/
def N_ref : Nat := 1024

/-- Tile side of the source (`#define BLOCK_SIZE (64U)`). -/
def BLOCK_SIZE : Nat := 64

/-- Number of timed iterations of the source (`#define ITER (5U)`). -/
def ITER : Nat := 5

/-- Status macro of the source (`#define SYSTEM_SUCCESS (0)`). -/
def SYSTEM_SUCCESS : Int := 0

/-- Status macro of the source (`#define SYSTEM_FAILURE (-1)`). -/
def SYSTEM_FAILURE : Int := -1

/-- Contents of a `uint64_t [N][N]` array: the cell at a row and a column. -/
abbrev Matrix := Nat → Nat → Nat

/-- The store `M[r][c] = v`. -/
def Matrix.set (M : Matrix) (r c v : Nat) : Matrix :=
  fun i j => if i = r ∧ j = c then v else M i j

/-- The loop `for (uint64_t i = 0; i < n; i++) body`, for a bound `n` that is
a `uint64_t` value: the counter then reaches `n` without wrapping, so the
iterations are those of `i = 0, 1, ..., n - 1` in this order. -/
def forLoop {σ : Type} (body : Nat → σ → σ) : Nat → σ → σ
  | 0, s => s
  | n + 1, s => body n (forLoop body n s)

/-- A loop `for (uint64_t i = start; cond i; i = next i) body` whose counter
may wrap: `fuel` bounds the number of evaluations of the condition, and
`none` is returned when the bound is reached before the condition fails. -/
def whileLoop {σ : Type} (cond : Nat → Bool) (next : Nat → Nat)
    (body : Nat → σ → Option σ) : Nat → Nat → σ → Option σ
  | 0, _, _ => none
  | fuel + 1, i, s =>
    if cond i then
      (body i s).bind (fun s' => whileLoop cond next body fuel (next i) s')
    else some s

/-! ## Kernels -/

/-- The statement `C[row][col] += x * y` on `uint64_t` operands. -/
def accumulate (C : Matrix) (row col x y : Nat) : Matrix :=
  C.set row col ((C row col + (x * y) % U64) % U64)

/-- Body of the `col` loop of `naive_MatMul` and of the `blockCol` loop of
`blocked_MatMul`: `C[row][col] = 0` followed by the `dot` loop
`C[row][col] += A[row][dot] * B[dot][col]`. -/
def dotCell (N : Nat) (A B : Matrix) (row col : Nat) (C : Matrix) : Matrix :=
  forLoop (fun dot C => accumulate C row col (A row dot) (B dot col)) N
    (C.set row col 0)

/-- The function `naive_MatMul(A, B, C)`. -/
def naive_MatMul (N : Nat) (A B C : Matrix) : Matrix :=
  forLoop (fun row C => forLoop (fun col C => dotCell N A B row col C) N C) N C

/-- The function `blocked_MatMul(A, B, C)` with tile side `BS`. The counters
`row` and `col` advance by `BS` and the tile bounds are `row + BS` and
`col + BS`, all computed in `uint64_t`. -/
def blocked_MatMul (fuel N BS : Nat) (A B C : Matrix) : Option Matrix :=
  whileLoop (fun row => decide (row < N)) (fun row => (row + BS) % U64)
    (fun row C =>
      whileLoop (fun col => decide (col < N)) (fun col => (col + BS) % U64)
        (fun col C =>
          whileLoop
            (fun blockRow => decide (blockRow < (row + BS) % U64) && decide (blockRow < N))
            (fun blockRow => (blockRow + 1) % U64)
            (fun blockRow C =>
              whileLoop
                (fun blockCol => decide (blockCol < (col + BS) % U64) && decide (blockCol < N))
                (fun blockCol => (blockCol + 1) % U64)
                (fun blockCol C => some (dotCell N A B blockRow blockCol C))
                fuel col C)
            fuel row C)
        fuel 0 C)
    fuel 0 C

/-- Body of the `col` loop of `trans_MatMul`: `C[row][col] = 0` followed by
the `dot` loop `C[row][col] += A[row][dot] * B[col][dot]`. -/
def dotCellT (N : Nat) (A B : Matrix) (row col : Nat) (C : Matrix) : Matrix :=
  forLoop (fun dot C => accumulate C row col (A row dot) (B col dot)) N
    (C.set row col 0)

/-- The function `trans_MatMul(A, B, C)`. -/
def trans_MatMul (N : Nat) (A B C : Matrix) : Matrix :=
  forLoop (fun row C => forLoop (fun col C => dotCellT N A B row col C) N C) N C

/-- The function `transpose(A, B)`: `B[col][row] = A[row][col]` for every
row and column; the updated `B` is returned. -/
def transpose (N : Nat) (A B : Matrix) : Matrix :=
  forLoop (fun row B => forLoop (fun col B => B.set col row (A row col)) N B) N B

/-- The loop nest of `blocked_MatMul` (the `row`, `col`, `blockRow` and
`blockCol` loops, counters and tile bounds in `uint64_t`), with the body of
the `blockCol` loop left as the parameter `cell`. -/
def tileLoops {σ : Type} (fuel N BS : Nat) (cell : Nat → Nat → σ → σ) (s : σ) : Option σ :=
  whileLoop (fun row => decide (row < N)) (fun row => (row + BS) % U64)
    (fun row s =>
      whileLoop (fun col => decide (col < N)) (fun col => (col + BS) % U64)
        (fun col s =>
          whileLoop
            (fun blockRow => decide (blockRow < (row + BS) % U64) && decide (blockRow < N))
            (fun blockRow => (blockRow + 1) % U64)
            (fun blockRow s =>
              whileLoop
                (fun blockCol => decide (blockCol < (col + BS) % U64) && decide (blockCol < N))
                (fun blockCol => (blockCol + 1) % U64)
                (fun blockCol s => some (cell blockRow blockCol s))
                fuel col s)
            fuel row s)
        fuel 0 s)
    fuel 0 s

/-- The pairs `(blockRow, blockCol)` at which the body of the `blockCol` loop
of `blocked_MatMul` runs, in the order of the runs. -/
def tileVisits (fuel N BS : Nat) : Option (List (Nat × Nat)) :=
  tileLoops fuel N BS (fun blockRow blockCol l => l ++ [(blockRow, blockCol)]) []

/-- The function `init_matrix(mat)`. The library function `rand` is the
parameter `rand`: the value returned by its call number `n`, a non-negative
`int`. The state is the matrix together with the number of calls of `rand`
made so far; each cell is assigned `(uint64_t)(rand() % 1000)`. -/
def init_matrix (N : Nat) (rand : Nat → Nat) (mat : Matrix) (calls : Nat) : Matrix × Nat :=
  forLoop (fun row st =>
    forLoop (fun col st => (st.1.set row col ((rand st.2 % 1000) % U64), st.2 + 1)) N st)
    N (mat, calls)

/-! ## Result comparator -/

/-- The matrix a mismatch report is about: the second (`B`) or the third
(`C`) argument of `comp_Result`. -/
inductive Operand
  | other1
  | other2
  deriving DecidableEq, Repr

/-- One line printed by `comp_Result`:
`Error: Result mismatch at X[row][col]: value != expected`. -/
structure Report where
  operand : Operand
  row : Nat
  col : Nat
  value : Nat
  expected : Nat
  deriving DecidableEq, Repr

/-- The local `status` of `comp_Result` and the lines printed so far. -/
structure CompState where
  status : Int
  out : List Report
  deriving DecidableEq, Repr

/-- Conversion of an `int` to `int8_t` (two's-complement reduction modulo
`256`, as GCC and Clang define it). -/
def toInt8 (x : Int) : Int := (x + 128) % 256 - 128

/-- The `col` loop of `comp_Result` for one row, over the columns still to
visit. A mismatch of `B` prints, assigns `SYSTEM_FAILURE` and leaves the loop
(`break`); a mismatch of `C` prints, adds `SYSTEM_FAILURE` to the `int8_t`
status and goes on. -/
def scanRow (A B C : Matrix) (row : Nat) : List Nat → CompState → CompState
  | [], st => st
  | col :: cols, st =>
    if B row col ≠ A row col then
      { status := SYSTEM_FAILURE,
        out := st.out ++ [⟨Operand.other1, row, col, B row col, A row col⟩] }
    else if C row col ≠ A row col then
      scanRow A B C row cols
        { status := toInt8 (st.status + SYSTEM_FAILURE),
          out := st.out ++ [⟨Operand.other2, row, col, C row col, A row col⟩] }
    else scanRow A B C row cols st

/-- The function `comp_Result(A, B, C)`: the returned status together with
the lines printed, in order. -/
def comp_Result (N : Nat) (A B C : Matrix) : CompState :=
  forLoop (fun row st => scanRow A B C row (List.range N) st) N ⟨SYSTEM_SUCCESS, []⟩

/-- The line `rep` is the one printed at column `c` by the scan of row `row`
that starts at column `s`: `B` matches `A` at the columns `s, ..., c - 1`, and
either `B` differs at `c` and the line is about `B`, or `B` matches, `C`
differs and the line is about `C`. -/
def Printed (A B C : Matrix) (row s c : Nat) (rep : Report) : Prop :=
  (∀ c', s ≤ c' → c' < c → B row c' = A row c') ∧
  ((B row c ≠ A row c ∧ rep = ⟨Operand.other1, row, c, B row c, A row c⟩) ∨
   (B row c = A row c ∧ C row c ≠ A row c ∧
      rep = ⟨Operand.other2, row, c, C row c, A row c⟩))

/-! ## Specification vocabulary -/

/-- The value of a destination cell under the kernels' contract: the sum over
`k` of `A[i][k] * B[k][j]`, reduced modulo `2 ^ 64`. -/
def prodCell (N : Nat) (A B : Matrix) : Matrix :=
  fun i j => (∑ k in Finset.range N, A i k * B k j) % U64

/-- The matrix `s'` holds the value of `f` in every cell of the region `R`
and the value of `s` in every other cell. -/
def Fills (f : Matrix) (R : Nat → Nat → Prop) (s s' : Matrix) : Prop :=
  ∀ x y, (R x y → s' x y = f x y) ∧ (¬ R x y → s' x y = s x y)

/-- No tile bound `row + BS` of a tile that starts below `N` exceeds the
`uint64_t` range. -/
def NoWrap (N BS : Nat) : Prop :=
  ∀ k, k * BS < N → k * BS + BS < U64

/-- The number of tiles per dimension. -/
def tiles (N BS : Nat) : Nat := (N + BS - 1) / BS

/-- The list `l'` is `l` followed by the pairs of the region `R`, each of
them once. -/
def Visits (R : Nat × Nat → Prop) (l l' : List (Nat × Nat)) : Prop :=
  ∃ t, l' = l ++ t ∧ t.Nodup ∧ ∀ p, p ∈ t ↔ R p

/-- The number of cells of `[0, N) × [0, N)` in which `C` differs from `A`. -/
def mismatchCount (N : Nat) (A C : Matrix) : Nat :=
  ∑ r in Finset.range N, ∑ c in Finset.range N, if C r c ≠ A r c then 1 else 0

/-! ## Test data -/

/-- The matrix `[[1, 2], [3, 4]]`. -/
def mA : Matrix := fun i j =>
  match i, j with
  | 0, 0 => 1 | 0, 1 => 2 | 1, 0 => 3 | 1, 1 => 4 | _, _ => 0

/-- The matrix `[[5, 6], [7, 8]]`. -/
def mB : Matrix := fun i j =>
  match i, j with
  | 0, 0 => 5 | 0, 1 => 6 | 1, 0 => 7 | 1, 1 => 8 | _, _ => 0

/-- The matrix `[[19, 22], [43, 50]]`. -/
def mC : Matrix := fun i j =>
  match i, j with
  | 0, 0 => 19 | 0, 1 => 22 | 1, 0 => 43 | 1, 1 => 50 | _, _ => 0

/-- A matrix holding the same value in every cell. -/
def constMat (v : Nat) : Matrix := fun _ _ => v

/-- A matrix that differs from the all-zero matrix in exactly the first `256`
cells of row `0`. -/
def mWrap : Matrix := fun i j => if i = 0 ∧ j < 256 then 1 else 0

/-! ## Loops that fill a region of a matrix -/

theorem Fills.inside {f : Matrix} {R : Nat → Nat → Prop} {s s' : Matrix}
    (h : Fills f R s s') {x y : Nat} (hR : R x y) : s' x y = f x y :=
  (h x y).1 hR

theorem Fills.outside {f : Matrix} {R : Nat → Nat → Prop} {s s' : Matrix}
    (h : Fills f R s s') {x y : Nat} (hR : ¬ R x y) : s' x y = s x y :=
  (h x y).2 hR

theorem Fills.empty (f : Matrix) (R : Nat → Nat → Prop) (s : Matrix)
    (hR : ∀ x y, ¬ R x y) : Fills f R s s :=
  fun x y => ⟨fun h => absurd h (hR x y), fun _ => rfl⟩

theorem Fills.congr {f : Matrix} {R R' : Nat → Nat → Prop} {s s' : Matrix}
    (h : Fills f R s s') (hR : ∀ x y, R x y ↔ R' x y) : Fills f R' s s' :=
  fun x y => ⟨fun h' => h.inside ((hR x y).2 h'),
    fun h' => h.outside (fun h'' => h' ((hR x y).1 h''))⟩

theorem Fills.comp {f : Matrix} {R₁ R₂ : Nat → Nat → Prop} {s s₁ s₂ : Matrix}
    (h₁ : Fills f R₁ s s₁) (h₂ : Fills f R₂ s₁ s₂) :
    Fills f (fun x y => R₁ x y ∨ R₂ x y) s s₂ := by
  intro x y
  by_cases h2 : R₂ x y
  · exact ⟨fun _ => h₂.inside h2, fun hn => absurd (Or.inr h2) hn⟩
  · by_cases h1 : R₁ x y
    · exact ⟨fun _ => by rw [h₂.outside h2, h₁.inside h1],
        fun hn => absurd (Or.inl h1) hn⟩
    · exact ⟨fun h => by rcases h with h | h <;> contradiction,
        fun _ => by rw [h₂.outside h2, h₁.outside h1]⟩

theorem Fills.set (f : Matrix) (s : Matrix) (r c : Nat) :
    Fills f (fun x y => x = r ∧ y = c) s (s.set r c (f r c)) := by
  intro x y
  constructor
  · rintro ⟨rfl, rfl⟩
    simp [Matrix.set]
  · intro h
    simp [Matrix.set, h]

/-- A counted loop whose iteration `i` fills the region `R i` fills the union
of the regions of its iterations. -/
theorem forLoop_fills (f : Matrix) (body : Nat → Matrix → Matrix)
    (R : Nat → Nat → Nat → Prop) (n : Nat)
    (hbody : ∀ i, i < n → ∀ s, Fills f (R i) s (body i s)) (s : Matrix) :
    Fills f (fun x y => ∃ i, i < n ∧ R i x y) s (forLoop body n s) := by
  induction n with
  | zero =>
    exact Fills.empty f _ s (fun x y h => by obtain ⟨i, hi, _⟩ := h; omega)
  | succ n ih =>
    have h₁ := ih (fun i hi => hbody i (Nat.lt_succ_of_lt hi))
    have h₂ := hbody n (Nat.lt_succ_self n) (forLoop body n s)
    refine (h₁.comp h₂).congr (fun x y => ?_)
    constructor
    · rintro (⟨i, hi, h⟩ | h)
      · exact ⟨i, Nat.lt_succ_of_lt hi, h⟩
      · exact ⟨n, Nat.lt_succ_self n, h⟩
    · rintro ⟨i, hi, h⟩
      rcases Nat.lt_succ_iff_lt_or_eq.1 hi with hlt | rfl
      · exact Or.inl ⟨i, hlt, h⟩
      · exact Or.inr h

/-- A loop with a wrapping counter whose counter takes the values
`seq 0, ..., seq (m - 1)` before its condition fails at `seq m`, and whose
iteration at `seq k` returns and fills `R (seq k)`, returns for every fuel
above the number of iterations left and fills the union of the regions. -/
theorem whileLoop_fills (f : Matrix) (cond : Nat → Bool) (next : Nat → Nat)
    (body : Nat → Matrix → Option Matrix) (R : Nat → Nat → Nat → Prop)
    (seq : Nat → Nat) (m : Nat)
    (hcond : ∀ k, k < m → cond (seq k) = true) (hexit : cond (seq m) = false)
    (hnext : ∀ k, k < m → next (seq k) = seq (k + 1))
    (hbody : ∀ k, k < m → ∀ s, ∃ s', body (seq k) s = some s' ∧ Fills f (R (seq k)) s s') :
    ∀ fuel k, k ≤ m → m - k < fuel → ∀ s, ∃ s',
      whileLoop cond next body fuel (seq k) s = some s' ∧
      Fills f (fun x y => ∃ k', k ≤ k' ∧ k' < m ∧ R (seq k') x y) s s' := by
  intro fuel
  induction fuel with
  | zero => intro k _ hf; omega
  | succ fuel ih =>
    intro k hk hf s
    rcases Nat.lt_or_ge k m with hlt | hge
    · obtain ⟨s₁, hs₁, hF₁⟩ := hbody k hlt s
      obtain ⟨s₂, hs₂, hF₂⟩ := ih (k + 1) hlt (by omega) s₁
      refine ⟨s₂, ?_, ?_⟩
      · simp only [whileLoop, hcond k hlt, if_true, hs₁, Option.bind, hnext k hlt, hs₂]
      · refine (hF₁.comp hF₂).congr (fun x y => ?_)
        constructor
        · rintro (h | ⟨k', h1, h2, h3⟩)
          · exact ⟨k, le_refl k, hlt, h⟩
          · exact ⟨k', by omega, h2, h3⟩
        · rintro ⟨k', h1, h2, h3⟩
          rcases Nat.eq_or_lt_of_le h1 with rfl | h1'
          · exact Or.inl h3
          · exact Or.inr ⟨k', h1', h2, h3⟩
    · have hkm : k = m := Nat.le_antisymm hk hge
      subst hkm
      refine ⟨s, ?_, ?_⟩
      · simp [whileLoop, hexit]
      · exact Fills.empty f _ s (fun x y h => by obtain ⟨k', h1, h2, _⟩ := h; omega)

/-! ## The dot-product loop -/

theorem accumulate_self (C : Matrix) (row col x y : Nat) :
    accumulate C row col x y row col = (C row col + (x * y) % U64) % U64 := by
  simp [accumulate, Matrix.set]

theorem accumulate_other (C : Matrix) (row col x y i j : Nat) (h : ¬ (i = row ∧ j = col)) :
    accumulate C row col x y i j = C i j := by
  simp [accumulate, Matrix.set, h]

theorem accumulate_loop (row col : Nat) (u v : Nat → Nat) (n : Nat) (C : Matrix)
    (hC : C row col < U64) :
    (forLoop (fun dot C => accumulate C row col (u dot) (v dot)) n C) row col
        = (C row col + ∑ k in Finset.range n, u k * v k) % U64
    ∧ ∀ x y, ¬ (x = row ∧ y = col) →
      (forLoop (fun dot C => accumulate C row col (u dot) (v dot)) n C) x y = C x y := by
  induction n with
  | zero => simp [forLoop, Nat.mod_eq_of_lt hC]
  | succ n ih =>
    obtain ⟨ih1, ih2⟩ := ih
    have e : forLoop (fun dot C => accumulate C row col (u dot) (v dot)) (n + 1) C
        = accumulate (forLoop (fun dot C => accumulate C row col (u dot) (v dot)) n C)
            row col (u n) (v n) := rfl
    constructor
    · rw [e, accumulate_self, ih1, Finset.sum_range_succ, ← Nat.add_assoc]
      exact (Nat.add_mod _ _ _).symm
    · intro x y hxy
      rw [e, accumulate_other _ _ _ _ _ _ _ hxy]
      exact ih2 x y hxy

theorem dotCell_fills (N : Nat) (A B : Matrix) (row col : Nat) (C : Matrix) :
    Fills (prodCell N A B) (fun x y => x = row ∧ y = col) C (dotCell N A B row col C) := by
  have h := accumulate_loop row col (fun k => A row k) (fun k => B k col) N
    (C.set row col 0) (by simp [Matrix.set, U64])
  intro x y
  constructor
  · rintro ⟨rfl, rfl⟩
    simp only [dotCell, prodCell, h.1]
    simp [Matrix.set]
  · intro hxy
    simp only [dotCell, h.2 x y hxy]
    simp [Matrix.set, hxy]

theorem dotCellT_fills (N : Nat) (A B : Matrix) (row col : Nat) (C : Matrix) :
    Fills (fun i j => (∑ k in Finset.range N, A i k * B j k) % U64)
      (fun x y => x = row ∧ y = col) C (dotCellT N A B row col C) := by
  have h := accumulate_loop row col (fun k => A row k) (fun k => B col k) N
    (C.set row col 0) (by simp [Matrix.set, U64])
  intro x y
  constructor
  · rintro ⟨rfl, rfl⟩
    simp only [dotCellT, h.1]
    simp [Matrix.set]
  · intro hxy
    simp only [dotCellT, h.2 x y hxy]
    simp [Matrix.set, hxy]

/-- Two nested counted loops over `[0, N)` whose body fills the single cell
`(row, col)` fill the square `[0, N) × [0, N)`. -/
theorem square_fills (f : Matrix) (cell : Nat → Nat → Matrix → Matrix) (N : Nat)
    (hcell : ∀ row col s, Fills f (fun x y => x = row ∧ y = col) s (cell row col s))
    (s : Matrix) :
    Fills f (fun x y => x < N ∧ y < N) s
      (forLoop (fun row C => forLoop (fun col C => cell row col C) N C) N s) := by
  have h := forLoop_fills f (fun row C => forLoop (fun col C => cell row col C) N C)
    (fun row x y => ∃ col, col < N ∧ (x = row ∧ y = col)) N
    (fun row _ s => forLoop_fills f (fun col C => cell row col C)
      (fun col x y => x = row ∧ y = col) N (fun col _ s => hcell row col s) s) s
  refine h.congr (fun x y => ?_)
  constructor
  · rintro ⟨i, hi, j, hj, rfl, rfl⟩
    exact ⟨hi, hj⟩
  · rintro ⟨hx, hy⟩
    exact ⟨x, hx, y, hy, rfl, rfl⟩

theorem naive_fills (N : Nat) (A B C : Matrix) :
    Fills (prodCell N A B) (fun x y => x < N ∧ y < N) C (naive_MatMul N A B C) :=
  square_fills _ _ N (fun row col s => dotCell_fills N A B row col s) C

theorem trans_fills (N : Nat) (A B C : Matrix) :
    Fills (fun i j => (∑ k in Finset.range N, A i k * B j k) % U64)
      (fun x y => x < N ∧ y < N) C (trans_MatMul N A B C) :=
  square_fills _ _ N (fun row col s => dotCellT_fills N A B row col s) C

theorem transpose_fills (N : Nat) (A B : Matrix) :
    Fills (fun x y => A y x) (fun x y => x < N ∧ y < N) B (transpose N A B) := by
  have h := forLoop_fills (fun x y => A y x)
    (fun row B => forLoop (fun col B => B.set col row (A row col)) N B)
    (fun row x y => ∃ col, col < N ∧ (x = col ∧ y = row)) N
    (fun row _ s => forLoop_fills (fun x y => A y x) (fun col B => B.set col row (A row col))
      (fun col x y => x = col ∧ y = row) N
      (fun col _ s => Fills.set (fun x y => A y x) s col row) s) B
  refine h.congr (fun x y => ?_)
  constructor
  · rintro ⟨i, hi, j, hj, rfl, rfl⟩
    exact ⟨hj, hi⟩
  · rintro ⟨hx, hy⟩
    exact ⟨y, hy, x, hx, rfl, rfl⟩

/-! ## The tile loops of the blocked kernel -/

theorem noWrap_of_le (N BS : Nat) (hN : N ≤ 2 ^ 63) (hBS : BS < 2 ^ 64) : NoWrap N BS := by
  intro k hk
  have hU : U64 = 2 ^ 63 + 2 ^ 63 := by norm_num [U64]
  rcases Nat.eq_zero_or_pos k with rfl | hpos
  · simpa [U64] using hBS
  · have h1 : 1 * BS ≤ k * BS := Nat.mul_le_mul_right BS hpos
    rw [Nat.one_mul] at h1
    omega

theorem noWrap_of_add_le (N BS : Nat) (h : N + BS ≤ 2 ^ 64) : NoWrap N BS := by
  intro k hk
  have hU : U64 = 2 ^ 64 := rfl
  omega

theorem lt_tiles_iff (N BS k : Nat) (hBS : 0 < BS) : k < tiles N BS ↔ k * BS < N := by
  unfold tiles
  rw [← Nat.succ_le_iff, Nat.le_div_iff_mul_le hBS, Nat.succ_mul]
  omega

theorem tiles_le (N BS : Nat) (hBS : 0 < BS) : tiles N BS ≤ N := by
  by_contra h
  have h1 : N < tiles N BS := Nat.lt_of_not_le h
  have h2 := (lt_tiles_iff N BS N hBS).1 h1
  have h3 : N * 1 ≤ N * BS := Nat.mul_le_mul_left N hBS
  omega

/-- The `blockRow` and `blockCol` loops: from `a` up to `a + BS`, clamped to
`N`, when `a + BS` does not wrap. -/
theorem tileLoop_fills (f : Matrix) (body : Nat → Matrix → Option Matrix)
    (R : Nat → Nat → Nat → Prop) (a BS N : Nat) (ha : a + BS < U64)
    (hbody : ∀ i, a ≤ i → i < a + BS → i < N → ∀ s,
      ∃ s', body i s = some s' ∧ Fills f (R i) s s')
    (fuel : Nat) (hf : N < fuel) (s : Matrix) :
    ∃ s', whileLoop (fun i => decide (i < (a + BS) % U64) && decide (i < N))
        (fun i => (i + 1) % U64) body fuel a s = some s' ∧
      Fills f (fun x y => ∃ i, a ≤ i ∧ i < a + BS ∧ i < N ∧ R i x y) s s' := by
  have hmod : (a + BS) % U64 = a + BS := Nat.mod_eq_of_lt ha
  rw [hmod]
  obtain ⟨s', hs', hF⟩ := whileLoop_fills f
    (fun i => decide (i < a + BS) && decide (i < N)) (fun i => (i + 1) % U64) body R
    (fun k => a + k) (min (a + BS) N - a)
    (fun k hk => by
      have h1 : a + k < a + BS := by omega
      have h2 : a + k < N := by omega
      simp [h1, h2])
    (by
      rcases Nat.lt_or_ge (a + (min (a + BS) N - a)) N with h | h
      · have h1 : ¬ (a + (min (a + BS) N - a) < a + BS) := by omega
        simp [h1]
      · have h1 : ¬ (a + (min (a + BS) N - a) < N) := by omega
        simp [h1])
    (fun k hk => by
      show (a + k + 1) % U64 = a + (k + 1)
      rw [Nat.mod_eq_of_lt (by omega)]
      rfl)
    (fun k hk s => hbody (a + k) (by omega) (by omega) (by omega) s)
    fuel 0 (Nat.zero_le _) (by omega) s
  refine ⟨s', hs', hF.congr (fun x y => ?_)⟩
  constructor
  · rintro ⟨k, _, hk, h⟩
    exact ⟨a + k, by omega, by omega, by omega, h⟩
  · rintro ⟨i, h1, h2, h3, h⟩
    refine ⟨i - a, Nat.zero_le _, by omega, ?_⟩
    have e : a + (i - a) = i := by omega
    rw [e]
    exact h

/-- The `row` and `col` loops: from `0` in steps of `BS` while below `N`. -/
theorem strideLoop_fills (f : Matrix) (body : Nat → Matrix → Option Matrix)
    (R : Nat → Nat → Nat → Prop) (N BS : Nat) (hBS : 0 < BS) (hnw : NoWrap N BS)
    (hbody : ∀ k, k * BS < N → ∀ s,
      ∃ s', body (k * BS) s = some s' ∧ Fills f (R (k * BS)) s s')
    (fuel : Nat) (hf : N < fuel) (s : Matrix) :
    ∃ s', whileLoop (fun i => decide (i < N)) (fun i => (i + BS) % U64) body fuel 0 s
        = some s' ∧
      Fills f (fun x y => ∃ k, k * BS < N ∧ R (k * BS) x y) s s' := by
  have hm := tiles_le N BS hBS
  obtain ⟨s', hs', hF⟩ := whileLoop_fills f
    (fun i => decide (i < N)) (fun i => (i + BS) % U64) body R
    (fun k => k * BS) (tiles N BS)
    (fun k hk => by simpa using (lt_tiles_iff N BS k hBS).1 hk)
    (by
      have h : ¬ (tiles N BS * BS < N) :=
        fun h => Nat.lt_irrefl _ ((lt_tiles_iff N BS _ hBS).2 h)
      simpa using Nat.le_of_not_lt h)
    (fun k hk => by
      show (k * BS + BS) % U64 = (k + 1) * BS
      rw [Nat.mod_eq_of_lt (hnw k ((lt_tiles_iff N BS k hBS).1 hk)), Nat.succ_mul])
    (fun k hk s => hbody k ((lt_tiles_iff N BS k hBS).1 hk) s)
    fuel 0 (Nat.zero_le _) (by omega) s
  refine ⟨s', ?_, hF.congr (fun x y => ?_)⟩
  · simpa using hs'
  · constructor
    · rintro ⟨k, _, hk, h⟩
      exact ⟨k, (lt_tiles_iff N BS k hBS).1 hk, h⟩
    · rintro ⟨k, hk, h⟩
      exact ⟨k, Nat.zero_le _, (lt_tiles_iff N BS k hBS).2 hk, h⟩

/-- The blocked kernel returns for every fuel above `N` and fills the square
`[0, N) × [0, N)` with the products, when no tile bound wraps. -/
theorem blocked_fills (N BS : Nat) (A B C : Matrix) (hBS : 0 < BS) (hnw : NoWrap N BS)
    (fuel : Nat) (hf : N < fuel) :
    ∃ C', blocked_MatMul fuel N BS A B C = some C' ∧
      Fills (prodCell N A B) (fun x y => x < N ∧ y < N) C C' := by
  have hcols : ∀ i kc, kc * BS < N → ∀ s : Matrix, ∃ s',
      whileLoop
        (fun blockCol => decide (blockCol < (kc * BS + BS) % U64) && decide (blockCol < N))
        (fun blockCol => (blockCol + 1) % U64)
        (fun blockCol C => some (dotCell N A B i blockCol C)) fuel (kc * BS) s = some s' ∧
      Fills (prodCell N A B)
        (fun x y => ∃ j, kc * BS ≤ j ∧ j < kc * BS + BS ∧ j < N ∧ (x = i ∧ y = j)) s s' :=
    fun i kc hkc s => tileLoop_fills (prodCell N A B)
      (fun blockCol C => some (dotCell N A B i blockCol C))
      (fun j x y => x = i ∧ y = j) (kc * BS) BS N (hnw kc hkc)
      (fun j _ _ _ s => ⟨_, rfl, dotCell_fills N A B i j s⟩) fuel hf s
  have hrows : ∀ kr kc, kr * BS < N → kc * BS < N → ∀ s : Matrix, ∃ s',
      whileLoop
        (fun blockRow => decide (blockRow < (kr * BS + BS) % U64) && decide (blockRow < N))
        (fun blockRow => (blockRow + 1) % U64)
        (fun blockRow C =>
          whileLoop
            (fun blockCol => decide (blockCol < (kc * BS + BS) % U64) && decide (blockCol < N))
            (fun blockCol => (blockCol + 1) % U64)
            (fun blockCol C => some (dotCell N A B blockRow blockCol C)) fuel (kc * BS) C)
        fuel (kr * BS) s = some s' ∧
      Fills (prodCell N A B)
        (fun x y => ∃ i, kr * BS ≤ i ∧ i < kr * BS + BS ∧ i < N ∧
          ∃ j, kc * BS ≤ j ∧ j < kc * BS + BS ∧ j < N ∧ (x = i ∧ y = j)) s s' :=
    fun kr kc hkr hkc s => tileLoop_fills (prodCell N A B)
      (fun blockRow C =>
        whileLoop
          (fun blockCol => decide (blockCol < (kc * BS + BS) % U64) && decide (blockCol < N))
          (fun blockCol => (blockCol + 1) % U64)
          (fun blockCol C => some (dotCell N A B blockRow blockCol C)) fuel (kc * BS) C)
      (fun i x y => ∃ j, kc * BS ≤ j ∧ j < kc * BS + BS ∧ j < N ∧ (x = i ∧ y = j))
      (kr * BS) BS N (hnw kr hkr) (fun i _ _ _ s => hcols i kc hkc s) fuel hf s
  have hcolTiles : ∀ kr, kr * BS < N → ∀ s : Matrix, ∃ s',
      whileLoop (fun col => decide (col < N)) (fun col => (col + BS) % U64)
        (fun col C =>
          whileLoop
            (fun blockRow => decide (blockRow < (kr * BS + BS) % U64) && decide (blockRow < N))
            (fun blockRow => (blockRow + 1) % U64)
            (fun blockRow C =>
              whileLoop
                (fun blockCol => decide (blockCol < (col + BS) % U64) && decide (blockCol < N))
                (fun blockCol => (blockCol + 1) % U64)
                (fun blockCol C => some (dotCell N A B blockRow blockCol C)) fuel col C)
            fuel (kr * BS) C)
        fuel 0 s = some s' ∧
      Fills (prodCell N A B)
        (fun x y => ∃ kc, kc * BS < N ∧ ∃ i, kr * BS ≤ i ∧ i < kr * BS + BS ∧ i < N ∧
          ∃ j, kc * BS ≤ j ∧ j < kc * BS + BS ∧ j < N ∧ (x = i ∧ y = j)) s s' :=
    fun kr hkr s => strideLoop_fills (prodCell N A B)
      (fun col C =>
        whileLoop
          (fun blockRow => decide (blockRow < (kr * BS + BS) % U64) && decide (blockRow < N))
          (fun blockRow => (blockRow + 1) % U64)
          (fun blockRow C =>
            whileLoop
              (fun blockCol => decide (blockCol < (col + BS) % U64) && decide (blockCol < N))
              (fun blockCol => (blockCol + 1) % U64)
              (fun blockCol C => some (dotCell N A B blockRow blockCol C)) fuel col C)
          fuel (kr * BS) C)
      (fun col x y => ∃ i, kr * BS ≤ i ∧ i < kr * BS + BS ∧ i < N ∧
        ∃ j, col ≤ j ∧ j < col + BS ∧ j < N ∧ (x = i ∧ y = j))
      N BS hBS hnw (fun kc hkc s => hrows kr kc hkr hkc s) fuel hf s
  obtain ⟨C', hC', hF⟩ := strideLoop_fills (prodCell N A B)
    (fun row C =>
      whileLoop (fun col => decide (col < N)) (fun col => (col + BS) % U64)
        (fun col C =>
          whileLoop
            (fun blockRow => decide (blockRow < (row + BS) % U64) && decide (blockRow < N))
            (fun blockRow => (blockRow + 1) % U64)
            (fun blockRow C =>
              whileLoop
                (fun blockCol => decide (blockCol < (col + BS) % U64) && decide (blockCol < N))
                (fun blockCol => (blockCol + 1) % U64)
                (fun blockCol C => some (dotCell N A B blockRow blockCol C)) fuel col C)
            fuel row C)
        fuel 0 C)
    (fun row x y => ∃ kc, kc * BS < N ∧ ∃ i, row ≤ i ∧ i < row + BS ∧ i < N ∧
      ∃ j, kc * BS ≤ j ∧ j < kc * BS + BS ∧ j < N ∧ (x = i ∧ y = j))
    N BS hBS hnw (fun kr hkr s => hcolTiles kr hkr s) fuel hf C
  refine ⟨C', hC', hF.congr (fun x y => ?_)⟩
  constructor
  · rintro ⟨kr, _, kc, _, i, _, _, hi, j, _, _, hj, rfl, rfl⟩
    exact ⟨hi, hj⟩
  · rintro ⟨hx, hy⟩
    have hx1 : x / BS * BS ≤ x := Nat.div_mul_le_self x BS
    have hy1 : y / BS * BS ≤ y := Nat.div_mul_le_self y BS
    have hx2 : x < x / BS * BS + BS := by
      have := Nat.div_add_mod x BS
      have := Nat.mod_lt x hBS
      rw [Nat.mul_comm] at hx1 ⊢
      omega
    have hy2 : y < y / BS * BS + BS := by
      have := Nat.div_add_mod y BS
      have := Nat.mod_lt y hBS
      rw [Nat.mul_comm] at hy1 ⊢
      omega
    exact ⟨x / BS, by omega, y / BS, by omega, x, hx1, hx2, hx, y, hy1, hy2, hy, rfl, rfl⟩

/-! ## Properties of the kernels -/

/-- C1: after `naive_MatMul(A, B, C)`, whatever `C` held before, every cell
`C[i][j]` with `i, j` in `[0, N)` holds the sum over `k` in `[0, N)` of
`A[i][k] * B[k][j]`, reduced modulo `2 ^ 64`. -/
theorem naive_MatMul_contract (N : Nat) (A B C : Matrix) (i j : Nat)
    (hi : i < N) (hj : j < N) :
    naive_MatMul N A B C i j = (∑ k in Finset.range N, A i k * B k j) % 2 ^ 64 :=
  (naive_fills N A B C).inside ⟨hi, hj⟩

theorem naive_MatMul_contract_witness :
    (1 < 2 ∧ 0 < 2) ∧
      naive_MatMul 2 mA mB (constMat 9) 1 0
        = (∑ k in Finset.range 2, mA 1 k * mB k 0) % 2 ^ 64 :=
  ⟨by decide, naive_MatMul_contract 2 mA mB (constMat 9) 1 0 (by decide) (by decide)⟩

/-- C2: for a dimension `N` of an addressable array (`N ≤ 2 ^ 63`), and
whatever the destinations and `BT` held before, `blocked_MatMul(A, B, C2)`
returns, and `naive_MatMul(A, B, C1)`, `blocked_MatMul(A, B, C2)` and
`transpose(B, BT); trans_MatMul(A, BT, C3)` leave the same value in every
cell of `[0, N) × [0, N)`. -/
theorem kernels_agree (N : Nat) (A B C1 C2 C3 BT : Matrix) (hN : N ≤ 2 ^ 63)
    (fuel : Nat) (hfuel : N < fuel) :
    ∃ R, blocked_MatMul fuel N BLOCK_SIZE A B C2 = some R ∧
      ∀ i j, i < N → j < N →
        naive_MatMul N A B C1 i j = R i j ∧
        R i j = trans_MatMul N A (transpose N B BT) C3 i j := by
  obtain ⟨R, hR, hF⟩ := blocked_fills N BLOCK_SIZE A B C2 (by decide)
    (noWrap_of_le N BLOCK_SIZE hN (by decide)) fuel hfuel
  refine ⟨R, hR, fun i j hi hj => ⟨?_, ?_⟩⟩
  · rw [(naive_fills N A B C1).inside ⟨hi, hj⟩, hF.inside ⟨hi, hj⟩]
  · rw [hF.inside ⟨hi, hj⟩, (trans_fills N A (transpose N B BT) C3).inside ⟨hi, hj⟩]
    show (∑ k in Finset.range N, A i k * B k j) % U64 = _
    congr 1
    refine Finset.sum_congr rfl (fun k hk => ?_)
    rw [(transpose_fills N B BT).inside ⟨hj, Finset.mem_range.1 hk⟩]

theorem kernels_agree_witness :
    (2 ≤ 2 ^ 63 ∧ 2 < 3) ∧
      ∃ R, blocked_MatMul 3 2 BLOCK_SIZE mA mB (constMat 1) = some R ∧
        ∀ i j, i < 2 → j < 2 →
          naive_MatMul 2 mA mB (constMat 0) i j = R i j ∧
          R i j = trans_MatMul 2 mA (transpose 2 mB (constMat 3)) (constMat 2) i j :=
  ⟨by decide,
    kernels_agree 2 mA mB (constMat 0) (constMat 1) (constMat 2) (constMat 3)
      (by decide) 3 (by decide)⟩

/-- C3: for every dimension `N` of an addressable array (`N ≤ 2 ^ 63`) and
every tile side `BS ≥ 1` that is a `uint64_t` value, whether or not `BS`
divides `N` and also when `BS > N`, `blocked_MatMul` with tile side `BS`
returns and leaves in every cell of `[0, N) × [0, N)` the value that
`naive_MatMul` leaves there, whatever the two destinations held before. -/
theorem blocked_eq_naive (N BS : Nat) (A B C C' : Matrix) (hBS : 1 ≤ BS)
    (hBS64 : BS < 2 ^ 64) (hN : N ≤ 2 ^ 63) (fuel : Nat) (hfuel : N < fuel) :
    ∃ R, blocked_MatMul fuel N BS A B C = some R ∧
      ∀ i j, i < N → j < N → R i j = naive_MatMul N A B C' i j := by
  obtain ⟨R, hR, hF⟩ := blocked_fills N BS A B C hBS (noWrap_of_le N BS hN hBS64) fuel hfuel
  refine ⟨R, hR, fun i j hi hj => ?_⟩
  rw [hF.inside ⟨hi, hj⟩, (naive_fills N A B C').inside ⟨hi, hj⟩]

theorem blocked_eq_naive_witness :
    (1 ≤ 3 ∧ 3 < 2 ^ 64 ∧ 2 ≤ 2 ^ 63 ∧ 2 < 3) ∧
      ∃ R, blocked_MatMul 3 2 3 mA mB (constMat 1) = some R ∧
        ∀ i j, i < 2 → j < 2 → R i j = naive_MatMul 2 mA mB (constMat 0) i j :=
  ⟨by decide,
    blocked_eq_naive 2 3 mA mB (constMat 1) (constMat 0) (by decide) (by decide)
      (by decide) 3 (by decide)⟩

/-- C4: after `transpose(src, dst)`, whatever `dst` held before, every cell
satisfies `dst[col][row] = src[row][col]` for `row, col` in `[0, N)`. -/
theorem transpose_correct (N : Nat) (src dst : Matrix) (row col : Nat)
    (hrow : row < N) (hcol : col < N) :
    transpose N src dst col row = src row col :=
  (transpose_fills N src dst).inside ⟨hcol, hrow⟩

theorem transpose_correct_witness :
    (0 < 2 ∧ 1 < 2) ∧ transpose 2 mA (constMat 7) 1 0 = mA 0 1 :=
  ⟨by decide, transpose_correct 2 mA (constMat 7) 0 1 (by decide) (by decide)⟩

/-- C10: transposing twice gives the matrix back: after `transpose(M, T)` and
then `transpose(T, M2)`, whatever `T` and `M2` held before, `M2` equals `M` in
every cell of `[0, N) × [0, N)`. -/
theorem transpose_involution (N : Nat) (M T M2 : Matrix) (i j : Nat)
    (hi : i < N) (hj : j < N) :
    transpose N (transpose N M T) M2 i j = M i j := by
  rw [(transpose_fills N (transpose N M T) M2).inside ⟨hi, hj⟩,
    (transpose_fills N M T).inside ⟨hj, hi⟩]

theorem transpose_involution_witness :
    (1 < 2 ∧ 0 < 2) ∧
      transpose 2 (transpose 2 mA (constMat 7)) (constMat 8) 1 0 = mA 1 0 :=
  ⟨by decide,
    transpose_involution 2 mA (constMat 7) (constMat 8) 1 0 (by decide) (by decide)⟩

/-! ## The comparator: rows without a mismatch, status, printed lines -/

theorem scanRow_clean (A B C : Matrix) (row : Nat) (cols : List Nat) (st : CompState)
    (h : ∀ c, c ∈ cols → B row c = A row c ∧ C row c = A row c) :
    scanRow A B C row cols st = st := by
  induction cols with
  | nil => rfl
  | cons col cols ih =>
    have hc := h col (List.mem_cons_self col cols)
    simp only [scanRow, hc.1, hc.2, ne_eq, not_true_eq_false, if_false]
    exact ih (fun c hmem => h c (List.mem_cons_of_mem col hmem))

/-- Rows `k, ..., n - 1` without a mismatch leave the state of `comp_Result`
as it is after row `k - 1`. -/
theorem forLoop_clean_rows (A B C : Matrix) (cols : List Nat) (k n : Nat) (hk : k ≤ n)
    (st : CompState)
    (h : ∀ r, k ≤ r → r < n → ∀ c, c ∈ cols → B r c = A r c ∧ C r c = A r c) :
    forLoop (fun row st => scanRow A B C row cols st) n st
      = forLoop (fun row st => scanRow A B C row cols st) k st := by
  induction n with
  | zero =>
    have : k = 0 := Nat.le_zero.1 hk
    subst this
    rfl
  | succ n ih =>
    rcases Nat.eq_or_lt_of_le hk with rfl | hlt
    · rfl
    · have hkn : k ≤ n := Nat.le_of_lt_succ hlt
      show scanRow A B C n cols (forLoop (fun row st => scanRow A B C row cols st) n st) = _
      rw [scanRow_clean A B C n cols _ (h n hkn (Nat.lt_succ_self n))]
      exact ih hkn (fun r h1 h2 => h r h1 (Nat.lt_succ_of_lt h2))

theorem mem_range_of_mem_range' {s n c : Nat} (h : c ∈ List.range' s n) :
    s ≤ c ∧ c < s + n := by
  have := List.mem_range'_1.1 h
  omega

/-- A row whose only mismatch is at column `c`: what its scan does. -/
theorem scanRow_single (A B C : Matrix) (row c : Nat) :
    ∀ n s (st : CompState), s ≤ c → c < s + n →
      (∀ c', s ≤ c' → c' < s + n → c' ≠ c → B row c' = A row c' ∧ C row c' = A row c') →
      (B row c ≠ A row c →
        scanRow A B C row (List.range' s n) st
          = ⟨SYSTEM_FAILURE, st.out ++ [⟨Operand.other1, row, c, B row c, A row c⟩]⟩) ∧
      (B row c = A row c → C row c ≠ A row c →
        scanRow A B C row (List.range' s n) st
          = ⟨toInt8 (st.status + SYSTEM_FAILURE),
              st.out ++ [⟨Operand.other2, row, c, C row c, A row c⟩]⟩) := by
  intro n
  induction n with
  | zero => intro s st h1 h2; omega
  | succ n ih =>
    intro s st h1 h2 hclean
    rw [List.range'_succ]
    rcases Nat.eq_or_lt_of_le h1 with rfl | hlt
    · have hrest : ∀ c', c' ∈ List.range' (s + 1) n →
          B row c' = A row c' ∧ C row c' = A row c' := by
        intro c' hmem
        have := mem_range_of_mem_range' hmem
        exact hclean c' (by omega) (by omega) (by omega)
      constructor
      · intro hB
        simp only [scanRow, hB, ne_eq, not_false_eq_true, if_true]
      · intro hB hC
        simp only [scanRow, hB, hC, ne_eq, not_true_eq_false, not_false_eq_true,
          if_false, if_true]
        exact scanRow_clean A B C row _ _ hrest
    · have hs := hclean s (le_refl s) (by omega) (by omega)
      have ih' := ih (s + 1) st hlt (by omega)
        (fun c' h3 h4 h5 => hclean c' (by omega) (by omega) h5)
      constructor
      · intro hB
        simp only [scanRow, hs.1, hs.2, ne_eq, not_true_eq_false, if_false]
        exact ih'.1 hB
      · intro hB hC
        simp only [scanRow, hs.1, hs.2, ne_eq, not_true_eq_false, if_false]
        exact ih'.2 hB hC

theorem toInt8_of_range (x : Int) (h1 : -128 ≤ x) (h2 : x ≤ 127) : toInt8 x = x := by
  unfold toInt8
  omega

theorem toInt8_range (x : Int) : -128 ≤ toInt8 x ∧ toInt8 x ≤ 127 := by
  unfold toInt8
  omega

/-- The status after the scan of a row in which `B` matches `A`: the status
before, minus the number of cells of the row in which `C` differs from `A`,
converted to `int8_t`. -/
theorem scanRow_status_of_match (A B C : Matrix) (row : Nat) (cols : List Nat) :
    ∀ st : CompState, -128 ≤ st.status → st.status ≤ 127 →
      (∀ c, c ∈ cols → B row c = A row c) →
      (scanRow A B C row cols st).status
        = toInt8 (st.status - (cols.countP (fun c => decide (C row c ≠ A row c)) : Nat)) := by
  induction cols with
  | nil =>
    intro st h1 h2 _
    simp [scanRow, toInt8_of_range _ h1 h2]
  | cons col cols ih =>
    intro st h1 h2 h
    have hB := h col (List.mem_cons_self col cols)
    have hrest : ∀ c, c ∈ cols → B row c = A row c :=
      fun c hmem => h c (List.mem_cons_of_mem col hmem)
    by_cases hC : C row col = A row col
    · have e : scanRow A B C row (col :: cols) st = scanRow A B C row cols st := by
        simp only [scanRow, hB, hC, ne_eq, not_true_eq_false, if_false]
      have e2 : (col :: cols).countP (fun c => decide (C row c ≠ A row c))
          = cols.countP (fun c => decide (C row c ≠ A row c)) := by
        simp [List.countP_cons, hC]
      rw [e, e2]
      exact ih st h1 h2 hrest
    · have e : scanRow A B C row (col :: cols) st = scanRow A B C row cols
          ⟨toInt8 (st.status + SYSTEM_FAILURE),
            st.out ++ [⟨Operand.other2, row, col, C row col, A row col⟩]⟩ := by
        simp only [scanRow, hB, hC, ne_eq, not_true_eq_false, not_false_eq_true,
          if_false, if_true]
      have e2 : (col :: cols).countP (fun c => decide (C row c ≠ A row c))
          = cols.countP (fun c => decide (C row c ≠ A row c)) + 1 := by
        simp [List.countP_cons, hC]
      have hr := toInt8_range (st.status + SYSTEM_FAILURE)
      rw [e, e2, ih _ hr.1 hr.2 hrest]
      show toInt8 (toInt8 (st.status + SYSTEM_FAILURE) - _) = _
      generalize cols.countP (fun c => decide (C row c ≠ A row c)) = k
      unfold toInt8 SYSTEM_FAILURE
      push_cast
      omega

/-- The lines of the scan of a row from column `s` over `n` columns. -/
theorem mem_scanRow_out (A B C : Matrix) (row : Nat) (rep : Report) :
    ∀ n s (st : CompState),
      rep ∈ (scanRow A B C row (List.range' s n) st).out ↔
        rep ∈ st.out ∨ ∃ c, (s ≤ c ∧ c < s + n) ∧ Printed A B C row s c rep := by
  intro n
  induction n with
  | zero =>
    intro s st
    constructor
    · intro h; exact Or.inl h
    · rintro (h | ⟨c, ⟨h1, h2⟩, _⟩)
      · exact h
      · omega
  | succ n ih =>
    intro s st
    rw [List.range'_succ]
    by_cases hB : B row s = A row s
    · have key : ∀ st' : CompState, ∀ Q : Prop,
          (Q ↔ Printed A B C row s s rep) →
          (rep ∈ st'.out ↔ rep ∈ st.out ∨ Q) →
          (rep ∈ (scanRow A B C row (List.range' (s + 1) n) st').out ↔
            rep ∈ st.out ∨ ∃ c, (s ≤ c ∧ c < s + (n + 1)) ∧ Printed A B C row s c rep) := by
        intro st' Q hQ hst'
        rw [ih (s + 1) st', hst']
        constructor
        · rintro ((h | h) | ⟨c, ⟨h1, h2⟩, h3, h4⟩)
          · exact Or.inl h
          · exact Or.inr ⟨s, ⟨le_refl s, by omega⟩, hQ.1 h⟩
          · refine Or.inr ⟨c, ⟨by omega, by omega⟩, ?_, h4⟩
            intro c' hc1 hc2
            by_cases hcs : c' = s
            · rw [hcs]; exact hB
            · exact h3 c' (by omega) hc2
        · rintro (h | ⟨c, ⟨h1, h2⟩, h3, h4⟩)
          · exact Or.inl (Or.inl h)
          · rcases Nat.eq_or_lt_of_le h1 with rfl | hlt
            · exact Or.inl (Or.inr (hQ.2 ⟨h3, h4⟩))
            · exact Or.inr ⟨c, ⟨hlt, by omega⟩, fun c' hc1 hc2 => h3 c' (by omega) hc2, h4⟩
      by_cases hC : C row s = A row s
      · have e : scanRow A B C row (s :: List.range' (s + 1) n) st
            = scanRow A B C row (List.range' (s + 1) n) st := by
          simp only [scanRow, hB, hC, ne_eq, not_true_eq_false, if_false]
        rw [e]
        refine key st False ?_ (by simp)
        constructor
        · intro h; exact absurd h id
        · rintro ⟨_, (⟨h, _⟩ | ⟨_, h, _⟩)⟩
          · exact h hB
          · exact h hC
      · have e : scanRow A B C row (s :: List.range' (s + 1) n) st
            = scanRow A B C row (List.range' (s + 1) n)
              ⟨toInt8 (st.status + SYSTEM_FAILURE),
                st.out ++ [⟨Operand.other2, row, s, C row s, A row s⟩]⟩ := by
          simp only [scanRow, hB, hC, ne_eq, not_true_eq_false, not_false_eq_true,
            if_false, if_true]
        rw [e]
        refine key _ (rep = ⟨Operand.other2, row, s, C row s, A row s⟩) ?_ (by simp)
        constructor
        · intro h
          exact ⟨fun c' h1 h2 => absurd h2 (Nat.not_lt.2 h1), Or.inr ⟨hB, hC, h⟩⟩
        · rintro ⟨_, (⟨h, _⟩ | ⟨_, _, h⟩)⟩
          · exact absurd hB h
          · exact h
    · have e : scanRow A B C row (s :: List.range' (s + 1) n) st
          = ⟨SYSTEM_FAILURE, st.out ++ [⟨Operand.other1, row, s, B row s, A row s⟩]⟩ := by
        simp only [scanRow, hB, ne_eq, not_false_eq_true, if_true]
      rw [e]
      simp only [List.mem_append, List.mem_singleton]
      constructor
      · rintro (h | h)
        · exact Or.inl h
        · exact Or.inr ⟨s, ⟨le_refl s, by omega⟩,
            fun c' h1 h2 => absurd h2 (Nat.not_lt.2 h1), Or.inl ⟨hB, h⟩⟩
      · rintro (h | ⟨c, ⟨h1, h2⟩, h3, h4⟩)
        · exact Or.inl h
        · rcases Nat.eq_or_lt_of_le h1 with rfl | hlt
          · rcases h4 with ⟨_, h⟩ | ⟨h, _⟩
            · exact Or.inr h
            · exact absurd h hB
          · exact absurd (h3 s (le_refl s) hlt) hB

/-- The lines printed by `comp_Result`: a line is printed for a cell exactly
when `B` matches `A` at every earlier column of the cell's row and either `B`
differs at the cell (a line about `B`), or `B` matches and `C` differs at the
cell (a line about `C`). -/
theorem mem_comp_Result_out (N : Nat) (A B C : Matrix) (rep : Report) :
    rep ∈ (comp_Result N A B C).out ↔
      ∃ r, r < N ∧ ∃ c, c < N ∧ Printed A B C r 0 c rep := by
  have h : ∀ n, rep ∈ (forLoop (fun row st => scanRow A B C row (List.range' 0 N) st) n
        ⟨SYSTEM_SUCCESS, []⟩).out ↔ ∃ r, r < n ∧ ∃ c, c < N ∧ Printed A B C r 0 c rep := by
    intro n
    induction n with
    | zero =>
      constructor
      · intro h; simp [forLoop] at h
      · rintro ⟨r, hr, _⟩; omega
    | succ n ih =>
      show rep ∈ (scanRow A B C n (List.range' 0 N) _).out ↔ _
      rw [mem_scanRow_out, ih]
      constructor
      · rintro (⟨r, hr, h⟩ | ⟨c, ⟨_, hc⟩, h⟩)
        · exact ⟨r, Nat.lt_succ_of_lt hr, h⟩
        · exact ⟨n, Nat.lt_succ_self n, c, by omega, h⟩
      · rintro ⟨r, hr, c, hc, h⟩
        rcases Nat.lt_succ_iff_lt_or_eq.1 hr with hlt | rfl
        · exact Or.inl ⟨r, hlt, c, hc, h⟩
        · exact Or.inr ⟨c, ⟨Nat.zero_le c, by omega⟩, h⟩
  unfold comp_Result
  rw [List.range_eq_range']
  exact h N

/-- Among the columns `0, ..., n - 1`, those below `k` number `min k n`. -/
theorem countP_range_lt (n k : Nat) :
    (List.range n).countP (fun c => decide (c < k)) = min k n := by
  induction n with
  | zero => simp
  | succ n ih =>
    rw [List.range_succ, List.countP_append, ih]
    by_cases h : n < k
    · simp [List.countP_cons, h]
      omega
    · simp [List.countP_cons, h]
      omega

/-- With `256` mismatches of `C`, all in row `0`, and none of `B`, the status
returned by `comp_Result` is `SYSTEM_SUCCESS`, for every dimension from
`256` on. -/
theorem status_wraps_of_le (N : Nat) (hN : 256 ≤ N) :
    (comp_Result N (constMat 0) (constMat 0) mWrap).status = SYSTEM_SUCCESS := by
  have h1 : comp_Result N (constMat 0) (constMat 0) mWrap
      = scanRow (constMat 0) (constMat 0) mWrap 0 (List.range N) ⟨SYSTEM_SUCCESS, []⟩ :=
    forLoop_clean_rows (constMat 0) (constMat 0) mWrap (List.range N) 1 N
      (by omega) ⟨SYSTEM_SUCCESS, []⟩
      (fun r hr _ c _ => by
        have hr0 : r ≠ 0 := by omega
        simp [constMat, mWrap, hr0])
  have e : (fun c => decide (mWrap 0 c ≠ constMat 0 0 c)) = (fun c => decide (c < 256)) := by
    funext c
    by_cases hc : c < 256 <;> simp [mWrap, constMat, hc]
  rw [h1, scanRow_status_of_match (constMat 0) (constMat 0) mWrap 0 (List.range N)
    ⟨SYSTEM_SUCCESS, []⟩ (by decide) (by decide) (fun c _ => rfl), e, countP_range_lt,
    Nat.min_eq_left hN]
  decide

/-! ## Properties of the comparator -/

/-- C5 (the code departs from it): `comp_Result` returns `SYSTEM_SUCCESS` on
the `1024 × 1024` matrices `reference = other1 = 0` and `other2 = mWrap`,
although `other2` differs from `reference` in `256` cells: the `int8_t` status
is decremented `256` times and is back at `0`. -/
theorem comp_Result_status_wraps :
    (comp_Result N_ref (constMat 0) (constMat 0) mWrap).status = SYSTEM_SUCCESS ∧
      mWrap 0 0 ≠ constMat 0 0 0 :=
  ⟨status_wraps_of_le N_ref (by decide), by decide⟩

/-- C6: when exactly one of `other1`, `other2` differs from `reference`, and
in exactly one cell `(r, c)`, `comp_Result` returns `SYSTEM_FAILURE`, which is
not `SYSTEM_SUCCESS`, and prints exactly one line; the line names the
differing matrix, the indices `r` and `c`, the differing value and
`reference[r][c]`. -/
theorem comp_Result_single_mismatch (N : Nat) (reference other1 other2 : Matrix) (r c : Nat)
    (hr : r < N) (hc : c < N)
    (h1 : ∀ i, i < N → ∀ j, j < N → (i ≠ r ∨ j ≠ c) → other1 i j = reference i j)
    (h2 : ∀ i, i < N → ∀ j, j < N → (i ≠ r ∨ j ≠ c) → other2 i j = reference i j)
    (hone : (other1 r c ≠ reference r c ∧ other2 r c = reference r c) ∨
      (other1 r c = reference r c ∧ other2 r c ≠ reference r c)) :
    (comp_Result N reference other1 other2).status = SYSTEM_FAILURE ∧
    (comp_Result N reference other1 other2).status ≠ SYSTEM_SUCCESS ∧
    (comp_Result N reference other1 other2).out =
      [if other1 r c ≠ reference r c
        then ⟨Operand.other1, r, c, other1 r c, reference r c⟩
        else ⟨Operand.other2, r, c, other2 r c, reference r c⟩] := by
  have hclean : ∀ i, i < N → i ≠ r → ∀ j, j ∈ List.range N →
      other1 i j = reference i j ∧ other2 i j = reference i j :=
    fun i hi hir j hj =>
      ⟨h1 i hi j (List.mem_range.1 hj) (Or.inl hir), h2 i hi j (List.mem_range.1 hj) (Or.inl hir)⟩
  have e1 : comp_Result N reference other1 other2
      = forLoop (fun row st => scanRow reference other1 other2 row (List.range N) st)
          (r + 1) ⟨SYSTEM_SUCCESS, []⟩ :=
    forLoop_clean_rows reference other1 other2 (List.range N) (r + 1) N hr _
      (fun i hi1 hi2 j hj => hclean i hi2 (by omega) j hj)
  have e2 : forLoop (fun row st => scanRow reference other1 other2 row (List.range N) st)
      r ⟨SYSTEM_SUCCESS, []⟩ = ⟨SYSTEM_SUCCESS, []⟩ :=
    forLoop_clean_rows reference other1 other2 (List.range N) 0 r (Nat.zero_le r) _
      (fun i _ hi2 j hj => hclean i (by omega) (by omega) j hj)
  have e3 : comp_Result N reference other1 other2
      = scanRow reference other1 other2 r (List.range' 0 N) ⟨SYSTEM_SUCCESS, []⟩ := by
    rw [e1, ← List.range_eq_range']
    show scanRow reference other1 other2 r (List.range N) (forLoop _ r _) = _
    rw [e2]
  have hs := scanRow_single reference other1 other2 r c N 0 ⟨SYSTEM_SUCCESS, []⟩
    (Nat.zero_le c) (by omega)
    (fun j _ hj hjc => ⟨h1 r hr j (by omega) (Or.inr hjc), h2 r hr j (by omega) (Or.inr hjc)⟩)
  have hne : SYSTEM_FAILURE ≠ SYSTEM_SUCCESS := by decide
  have hdec : toInt8 (SYSTEM_SUCCESS + SYSTEM_FAILURE) = SYSTEM_FAILURE := by decide
  rcases hone with ⟨hB, _⟩ | ⟨hB, hC⟩
  · rw [e3, hs.1 hB]
    refine ⟨rfl, hne, ?_⟩
    simp [hB]
  · rw [e3, hs.2 hB hC]
    refine ⟨hdec, ?_, ?_⟩
    · show toInt8 (SYSTEM_SUCCESS + SYSTEM_FAILURE) ≠ SYSTEM_SUCCESS
      rw [hdec]
      exact hne
    · simp [hB]

theorem comp_Result_single_mismatch_witness :
    ((1 < 2 ∧ 0 < 2) ∧
      (∀ i, i < 2 → ∀ j, j < 2 → (i ≠ 1 ∨ j ≠ 0) → mA i j = mA i j) ∧
      (∀ i, i < 2 → ∀ j, j < 2 → (i ≠ 1 ∨ j ≠ 0) → (mA.set 1 0 9) i j = mA i j) ∧
      ((mA 1 0 ≠ mA 1 0 ∧ (mA.set 1 0 9) 1 0 = mA 1 0) ∨
        (mA 1 0 = mA 1 0 ∧ (mA.set 1 0 9) 1 0 ≠ mA 1 0))) ∧
    ((comp_Result 2 mA mA (mA.set 1 0 9)).status = SYSTEM_FAILURE ∧
      (comp_Result 2 mA mA (mA.set 1 0 9)).status ≠ SYSTEM_SUCCESS ∧
      (comp_Result 2 mA mA (mA.set 1 0 9)).out =
        [if mA 1 0 ≠ mA 1 0
          then ⟨Operand.other1, 1, 0, mA 1 0, mA 1 0⟩
          else ⟨Operand.other2, 1, 0, (mA.set 1 0 9) 1 0, mA 1 0⟩]) :=
  ⟨by decide,
    comp_Result_single_mismatch 2 mA mA (mA.set 1 0 9) 1 0 (by decide) (by decide)
      (by decide) (by decide) (by decide)⟩

/-- C7: when `other1` and `other2` equal `M` in every cell,
`comp_Result(M, other1, other2)` returns `SYSTEM_SUCCESS` and prints no
line. -/
theorem comp_Result_identical (N : Nat) (M other1 other2 : Matrix)
    (h1 : ∀ i, i < N → ∀ j, j < N → other1 i j = M i j)
    (h2 : ∀ i, i < N → ∀ j, j < N → other2 i j = M i j) :
    (comp_Result N M other1 other2).status = SYSTEM_SUCCESS ∧
      (comp_Result N M other1 other2).out = [] := by
  have e : comp_Result N M other1 other2 = ⟨SYSTEM_SUCCESS, []⟩ :=
    forLoop_clean_rows M other1 other2 (List.range N) 0 N (Nat.zero_le N) _
      (fun i _ hi j hj => ⟨h1 i hi j (List.mem_range.1 hj), h2 i hi j (List.mem_range.1 hj)⟩)
  rw [e]
  exact ⟨rfl, rfl⟩

theorem comp_Result_identical_witness :
    ((∀ i, i < 2 → ∀ j, j < 2 → mA i j = mA i j) ∧
      (∀ i, i < 2 → ∀ j, j < 2 → (mA.set 2 2 5) i j = mA i j)) ∧
    ((comp_Result 2 mA mA (mA.set 2 2 5)).status = SYSTEM_SUCCESS ∧
      (comp_Result 2 mA mA (mA.set 2 2 5)).out = []) :=
  ⟨by decide, comp_Result_identical 2 mA mA (mA.set 2 2 5) (by decide) (by decide)⟩

/-- C8 (the code departs from it): on the `1024 × 1024` matrices
`reference = 0` and `other1 = other2 = 1`, where both matrices differ from
`reference` in every cell, every line `comp_Result` prints is about `other1`
at column `0`: no line is printed for `other2`, and none for `other1` at a
column after the first. -/
theorem comp_Result_misses_reports :
    constMat 1 0 1 ≠ constMat 0 0 1 ∧
      ∀ rep, rep ∈ (comp_Result N_ref (constMat 0) (constMat 1) (constMat 1)).out →
        rep.operand = Operand.other1 ∧ rep.col = 0 := by
  refine ⟨by decide, fun rep h => ?_⟩
  obtain ⟨r, _, c, _, hfirst, hrep⟩ := (mem_comp_Result_out _ _ _ _ rep).1 h
  have hc : c = 0 := by
    by_contra hne
    have := hfirst 0 (Nat.zero_le 0) (Nat.pos_of_ne_zero hne)
    simp [constMat] at this
  rcases hrep with ⟨_, rfl⟩ | ⟨hB, _⟩
  · exact ⟨rfl, hc⟩
  · simp [constMat] at hB

/-- C9: in every row `r` in which `other1` or `other2` differs from
`reference`, `comp_Result` prints a line for the first mismatching cell of the
row, the smallest column `c` at which one of them differs: the line is about
`other1` when `other1` differs there, and about `other2` otherwise. This holds
for every row, whatever the rows before it contain. -/
theorem comp_Result_first_mismatch (N : Nat) (reference other1 other2 : Matrix) (r c : Nat)
    (hr : r < N) (hc : c < N)
    (hmis : other1 r c ≠ reference r c ∨ other2 r c ≠ reference r c)
    (hfirst : ∀ c', c' < c → other1 r c' = reference r c' ∧ other2 r c' = reference r c') :
    (other1 r c ≠ reference r c →
      ⟨Operand.other1, r, c, other1 r c, reference r c⟩
        ∈ (comp_Result N reference other1 other2).out) ∧
    (other1 r c = reference r c →
      ⟨Operand.other2, r, c, other2 r c, reference r c⟩
        ∈ (comp_Result N reference other1 other2).out) := by
  constructor
  · intro hB
    exact (mem_comp_Result_out _ _ _ _ _).2
      ⟨r, hr, c, hc, fun c' _ h => (hfirst c' h).1, Or.inl ⟨hB, rfl⟩⟩
  · intro hB
    have hC : other2 r c ≠ reference r c := by
      rcases hmis with h | h
      · exact absurd hB h
      · exact h
    exact (mem_comp_Result_out _ _ _ _ _).2
      ⟨r, hr, c, hc, fun c' _ h => (hfirst c' h).1, Or.inr ⟨hB, hC, rfl⟩⟩

theorem comp_Result_first_mismatch_witness :
    ((1 < 2 ∧ 1 < 2) ∧
      (mA 1 1 ≠ mA 1 1 ∨ (mA.set 1 1 8) 1 1 ≠ mA 1 1) ∧
      (∀ c', c' < 1 → mA 1 c' = mA 1 c' ∧ (mA.set 1 1 8) 1 c' = mA 1 c')) ∧
    ((mA 1 1 ≠ mA 1 1 →
        ⟨Operand.other1, 1, 1, mA 1 1, mA 1 1⟩
          ∈ (comp_Result 2 mA mA (mA.set 1 1 8)).out) ∧
      (mA 1 1 = mA 1 1 →
        ⟨Operand.other2, 1, 1, (mA.set 1 1 8) 1 1, mA 1 1⟩
          ∈ (comp_Result 2 mA mA (mA.set 1 1 8)).out)) :=
  ⟨by decide,
    comp_Result_first_mismatch 2 mA mA (mA.set 1 1 8) 1 1 (by decide) (by decide)
      (by decide) (by decide)⟩

/-! ## Further properties of the kernels -/

/-- The transpose-based method: `transpose(B, BT)` followed by
`trans_MatMul(A, BT, C)` leaves the product of `A` and `B` in every cell. -/
theorem trans_transpose_cell (N : Nat) (A B BT C : Matrix) (i j : Nat)
    (hi : i < N) (hj : j < N) :
    trans_MatMul N A (transpose N B BT) C i j = prodCell N A B i j := by
  rw [(trans_fills N A (transpose N B BT) C).inside ⟨hi, hj⟩]
  show _ = (∑ k in Finset.range N, A i k * B k j) % U64
  congr 1
  refine Finset.sum_congr rfl (fun k hk => ?_)
  rw [(transpose_fills N B BT).inside ⟨hj, Finset.mem_range.1 hk⟩]

theorem prodCell_zero_right (N : Nat) (M Z : Matrix) (i j : Nat)
    (hZ : ∀ k, k < N → Z k j = 0) : prodCell N M Z i j = 0 := by
  have h : ∑ k in Finset.range N, M i k * Z k j = 0 :=
    Finset.sum_eq_zero (fun k hk => by rw [hZ k (Finset.mem_range.1 hk), Nat.mul_zero])
  simp [prodCell, h]

theorem prodCell_zero_left (N : Nat) (M Z : Matrix) (i j : Nat)
    (hZ : ∀ k, k < N → Z i k = 0) : prodCell N Z M i j = 0 := by
  have h : ∑ k in Finset.range N, Z i k * M k j = 0 :=
    Finset.sum_eq_zero (fun k hk => by rw [hZ k (Finset.mem_range.1 hk), Nat.zero_mul])
  simp [prodCell, h]

/-- C11: for every matrix `M` and a matrix `Z` whose cells are all `0`, each of
the three kernels (naive, blocked, transpose followed by `trans_MatMul`)
applied to `M` and `Z`, with `Z` as the right or as the left operand, leaves
`0` in every cell of `[0, N) × [0, N)`; `N` is the dimension of an addressable
array (`N ≤ 2 ^ 63`) and the blocked kernel returns. -/
theorem zero_operand (N : Nat) (M Z C BT : Matrix)
    (hZ : ∀ i, i < N → ∀ j, j < N → Z i j = 0) (hN : N ≤ 2 ^ 63)
    (fuel : Nat) (hfuel : N < fuel) :
    ∃ R R', blocked_MatMul fuel N BLOCK_SIZE M Z C = some R ∧
      blocked_MatMul fuel N BLOCK_SIZE Z M C = some R' ∧
      ∀ i j, i < N → j < N →
        naive_MatMul N M Z C i j = 0 ∧ naive_MatMul N Z M C i j = 0 ∧
        R i j = 0 ∧ R' i j = 0 ∧
        trans_MatMul N M (transpose N Z BT) C i j = 0 ∧
        trans_MatMul N Z (transpose N M BT) C i j = 0 := by
  have hnw := noWrap_of_le N BLOCK_SIZE hN (by decide)
  obtain ⟨R, hR, hF⟩ := blocked_fills N BLOCK_SIZE M Z C (by decide) hnw fuel hfuel
  obtain ⟨R', hR', hF'⟩ := blocked_fills N BLOCK_SIZE Z M C (by decide) hnw fuel hfuel
  refine ⟨R, R', hR, hR', fun i j hi hj => ?_⟩
  have hr : prodCell N M Z i j = 0 := prodCell_zero_right N M Z i j (fun k hk => hZ k hk j hj)
  have hl : prodCell N Z M i j = 0 := prodCell_zero_left N M Z i j (fun k hk => hZ i hi k hk)
  refine ⟨?_, ?_, ?_, ?_, ?_, ?_⟩
  · rw [(naive_fills N M Z C).inside ⟨hi, hj⟩, hr]
  · rw [(naive_fills N Z M C).inside ⟨hi, hj⟩, hl]
  · rw [hF.inside ⟨hi, hj⟩, hr]
  · rw [hF'.inside ⟨hi, hj⟩, hl]
  · rw [trans_transpose_cell N M Z BT C i j hi hj, hr]
  · rw [trans_transpose_cell N Z M BT C i j hi hj, hl]

theorem zero_operand_witness :
    ((∀ i, i < 2 → ∀ j, j < 2 → constMat 0 i j = 0) ∧ 2 ≤ 2 ^ 63 ∧ 2 < 3) ∧
    ∃ R R', blocked_MatMul 3 2 BLOCK_SIZE mA (constMat 0) mB = some R ∧
      blocked_MatMul 3 2 BLOCK_SIZE (constMat 0) mA mB = some R' ∧
      ∀ i j, i < 2 → j < 2 →
        naive_MatMul 2 mA (constMat 0) mB i j = 0 ∧
        naive_MatMul 2 (constMat 0) mA mB i j = 0 ∧
        R i j = 0 ∧ R' i j = 0 ∧
        trans_MatMul 2 mA (transpose 2 (constMat 0) (constMat 7)) mB i j = 0 ∧
        trans_MatMul 2 (constMat 0) (transpose 2 mA (constMat 7)) mB i j = 0 :=
  ⟨by decide,
    zero_operand 2 mA (constMat 0) mB (constMat 7) (by decide) (by decide) 3 (by decide)⟩

/-- C12: each kernel overwrites its destination: for all `A`, `B` and any two
prior contents `C` and `C'` of the destination, `naive_MatMul`,
`blocked_MatMul` and `trans_MatMul` leave the same value in every cell of
`[0, N) × [0, N)` when run on `(A, B, C)` and on `(A, B, C')`; `N` is the
dimension of an addressable array (`N ≤ 2 ^ 63`) and the blocked kernel
returns. -/
theorem kernels_overwrite (N : Nat) (A B C C' : Matrix) (hN : N ≤ 2 ^ 63)
    (fuel : Nat) (hfuel : N < fuel) :
    ∃ R R', blocked_MatMul fuel N BLOCK_SIZE A B C = some R ∧
      blocked_MatMul fuel N BLOCK_SIZE A B C' = some R' ∧
      ∀ i j, i < N → j < N →
        naive_MatMul N A B C i j = naive_MatMul N A B C' i j ∧
        R i j = R' i j ∧
        trans_MatMul N A B C i j = trans_MatMul N A B C' i j := by
  have hnw := noWrap_of_le N BLOCK_SIZE hN (by decide)
  obtain ⟨R, hR, hF⟩ := blocked_fills N BLOCK_SIZE A B C (by decide) hnw fuel hfuel
  obtain ⟨R', hR', hF'⟩ := blocked_fills N BLOCK_SIZE A B C' (by decide) hnw fuel hfuel
  refine ⟨R, R', hR, hR', fun i j hi hj => ⟨?_, ?_, ?_⟩⟩
  · rw [(naive_fills N A B C).inside ⟨hi, hj⟩, (naive_fills N A B C').inside ⟨hi, hj⟩]
  · rw [hF.inside ⟨hi, hj⟩, hF'.inside ⟨hi, hj⟩]
  · rw [(trans_fills N A B C).inside ⟨hi, hj⟩, (trans_fills N A B C').inside ⟨hi, hj⟩]

theorem kernels_overwrite_witness :
    (2 ≤ 2 ^ 63 ∧ 2 < 3) ∧
    ∃ R R', blocked_MatMul 3 2 BLOCK_SIZE mA mB (constMat 1) = some R ∧
      blocked_MatMul 3 2 BLOCK_SIZE mA mB mC = some R' ∧
      ∀ i j, i < 2 → j < 2 →
        naive_MatMul 2 mA mB (constMat 1) i j = naive_MatMul 2 mA mB mC i j ∧
        R i j = R' i j ∧
        trans_MatMul 2 mA mB (constMat 1) i j = trans_MatMul 2 mA mB mC i j :=
  ⟨by decide, kernels_overwrite 2 mA mB (constMat 1) mC (by decide) 3 (by decide)⟩

theorem prodCell_mA_mB : ∀ i, i < 2 → ∀ j, j < 2 → prodCell 2 mA mB i j = mC i j := by
  decide

/-- C14: for `N = 2`, `A = [[1, 2], [3, 4]]` and `B = [[5, 6], [7, 8]]`,
`naive_MatMul` yields `[[19, 22], [43, 50]]`, and `blocked_MatMul` and
`transpose` followed by `trans_MatMul` yield the same matrix, whatever the
destinations and `BT` held before. -/
theorem reference_product (C1 C2 C3 BT : Matrix) (fuel : Nat) (hfuel : 2 < fuel) :
    ∃ R, blocked_MatMul fuel 2 BLOCK_SIZE mA mB C2 = some R ∧
      ∀ i j, i < 2 → j < 2 →
        naive_MatMul 2 mA mB C1 i j = mC i j ∧
        R i j = mC i j ∧
        trans_MatMul 2 mA (transpose 2 mB BT) C3 i j = mC i j := by
  obtain ⟨R, hR, hF⟩ := blocked_fills 2 BLOCK_SIZE mA mB C2 (by decide)
    (noWrap_of_le 2 BLOCK_SIZE (by decide) (by decide)) fuel hfuel
  refine ⟨R, hR, fun i j hi hj => ?_⟩
  have h := prodCell_mA_mB i hi j hj
  refine ⟨?_, ?_, ?_⟩
  · rw [(naive_fills 2 mA mB C1).inside ⟨hi, hj⟩, h]
  · rw [hF.inside ⟨hi, hj⟩, h]
  · rw [trans_transpose_cell 2 mA mB BT C3 i j hi hj, h]

theorem reference_product_witness :
    (2 < 3) ∧
    ∃ R, blocked_MatMul 3 2 BLOCK_SIZE mA mB (constMat 1) = some R ∧
      ∀ i j, i < 2 → j < 2 →
        naive_MatMul 2 mA mB (constMat 0) i j = mC i j ∧
        R i j = mC i j ∧
        trans_MatMul 2 mA (transpose 2 mB (constMat 3)) (constMat 2) i j = mC i j :=
  ⟨by decide,
    reference_product (constMat 0) (constMat 1) (constMat 2) (constMat 3) 3 (by decide)⟩

/-- C16: after `trans_MatMul(A, BT, C)`, whatever `C` held before, every cell
`C[row][col]` with `row, col` in `[0, N)` holds the sum over `dot` in `[0, N)`
of `A[row][dot] * BT[col][dot]`, reduced modulo `2 ^ 64`: the product of `A`
and the transpose of the second argument. It is not the product of `A` and
the second argument: on some matrices `trans_MatMul` and `naive_MatMul`
differ. -/
theorem trans_MatMul_contract (N : Nat) (A BT C : Matrix) (row col : Nat)
    (hrow : row < N) (hcol : col < N) :
    trans_MatMul N A BT C row col
        = (∑ dot in Finset.range N, A row dot * BT col dot) % 2 ^ 64 ∧
      ∃ A' B' C' : Matrix, trans_MatMul 2 A' B' C' 0 0 ≠ naive_MatMul 2 A' B' C' 0 0 :=
  ⟨(trans_fills N A BT C).inside ⟨hrow, hcol⟩, mA, mB, constMat 0, by decide⟩

theorem trans_MatMul_contract_witness :
    (1 < 2 ∧ 0 < 2) ∧
      (trans_MatMul 2 mA mB (constMat 9) 1 0
          = (∑ dot in Finset.range 2, mA 1 dot * mB 0 dot) % 2 ^ 64 ∧
        ∃ A' B' C' : Matrix, trans_MatMul 2 A' B' C' 0 0 ≠ naive_MatMul 2 A' B' C' 0 0) :=
  ⟨by decide, trans_MatMul_contract 2 mA mB (constMat 9) 1 0 (by decide) (by decide)⟩

theorem sum_le_of_cells_lt (N : Nat) (A B : Matrix) (i j : Nat)
    (hA : ∀ k, k < N → A i k < 1000) (hB : ∀ k, k < N → B k j < 1000) :
    ∑ k in Finset.range N, A i k * B k j ≤ N * (999 * 999) := by
  have h := Finset.sum_le_card_nsmul (Finset.range N) (fun k => A i k * B k j) (999 * 999)
    (fun k hk => by
      have h1 := hA k (Finset.mem_range.1 hk)
      have h2 := hB k (Finset.mem_range.1 hk)
      exact Nat.mul_le_mul (by omega) (by omega))
  simpa [Finset.card_range, smul_eq_mul] using h

/-- C18: for `N = 1024` and matrices `A`, `B` whose cells all lie in
`[0, 1000)`, no kernel wraps around: every cell left by `naive_MatMul`, by
`blocked_MatMul` and by `transpose` followed by `trans_MatMul` equals the
exact sum over `k` of `A[i][k] * B[k][j]`, which is at most
`1024 * 999 * 999 = 1021953024 < 2 ^ 64`. -/
theorem no_wraparound (A B C1 C2 C3 BT : Matrix)
    (hA : ∀ i, i < N_ref → ∀ j, j < N_ref → A i j < 1000)
    (hB : ∀ i, i < N_ref → ∀ j, j < N_ref → B i j < 1000)
    (fuel : Nat) (hfuel : N_ref < fuel) :
    1024 * 999 * 999 = 1021953024 ∧ 1021953024 < 2 ^ 64 ∧
    ∃ R, blocked_MatMul fuel N_ref BLOCK_SIZE A B C2 = some R ∧
      ∀ i j, i < N_ref → j < N_ref →
        ∑ k in Finset.range N_ref, A i k * B k j ≤ 1021953024 ∧
        naive_MatMul N_ref A B C1 i j = ∑ k in Finset.range N_ref, A i k * B k j ∧
        R i j = ∑ k in Finset.range N_ref, A i k * B k j ∧
        trans_MatMul N_ref A (transpose N_ref B BT) C3 i j
          = ∑ k in Finset.range N_ref, A i k * B k j := by
  refine ⟨by decide, by decide, ?_⟩
  obtain ⟨R, hR, hF⟩ := blocked_fills N_ref BLOCK_SIZE A B C2 (by decide)
    (noWrap_of_le N_ref BLOCK_SIZE (by decide) (by decide)) fuel hfuel
  refine ⟨R, hR, fun i j hi hj => ?_⟩
  have hle : ∑ k in Finset.range N_ref, A i k * B k j ≤ 1021953024 := by
    have h := sum_le_of_cells_lt N_ref A B i j (fun k hk => hA i hi k hk)
      (fun k hk => hB k hk j hj)
    have e : N_ref * (999 * 999) = 1021953024 := by decide
    omega
  have hcell : prodCell N_ref A B i j = ∑ k in Finset.range N_ref, A i k * B k j :=
    Nat.mod_eq_of_lt (Nat.lt_of_le_of_lt hle (by decide))
  refine ⟨hle, ?_, ?_, ?_⟩
  · rw [(naive_fills N_ref A B C1).inside ⟨hi, hj⟩, hcell]
  · rw [hF.inside ⟨hi, hj⟩, hcell]
  · rw [trans_transpose_cell N_ref A B BT C3 i j hi hj, hcell]

theorem no_wraparound_witness :
    ((∀ i, i < N_ref → ∀ j, j < N_ref → constMat 5 i j < 1000) ∧
      (∀ i, i < N_ref → ∀ j, j < N_ref → constMat 7 i j < 1000) ∧ N_ref < 1025) ∧
    (1024 * 999 * 999 = 1021953024 ∧ 1021953024 < 2 ^ 64 ∧
    ∃ R, blocked_MatMul 1025 N_ref BLOCK_SIZE (constMat 5) (constMat 7) mA = some R ∧
      ∀ i j, i < N_ref → j < N_ref →
        ∑ k in Finset.range N_ref, constMat 5 i k * constMat 7 k j ≤ 1021953024 ∧
        naive_MatMul N_ref (constMat 5) (constMat 7) mA i j
          = ∑ k in Finset.range N_ref, constMat 5 i k * constMat 7 k j ∧
        R i j = ∑ k in Finset.range N_ref, constMat 5 i k * constMat 7 k j ∧
        trans_MatMul N_ref (constMat 5) (transpose N_ref (constMat 7) mB) mC i j
          = ∑ k in Finset.range N_ref, constMat 5 i k * constMat 7 k j) :=
  ⟨⟨fun _ _ _ _ => by simp [constMat], fun _ _ _ _ => by simp [constMat], by decide⟩,
    no_wraparound (constMat 5) (constMat 7) mA mA mC mB
      (fun _ _ _ _ => by simp [constMat]) (fun _ _ _ _ => by simp [constMat])
      1025 (by decide)⟩

/-! ## The initializer -/

/-- A counted loop keeps an invariant indexed by the number of iterations
done. -/
theorem forLoop_inv {σ : Type} (P : Nat → σ → Prop) (body : Nat → σ → σ) (n : Nat) (s : σ)
    (h0 : P 0 s) (hstep : ∀ i, i < n → ∀ s, P i s → P (i + 1) (body i s)) :
    P n (forLoop body n s) := by
  induction n with
  | zero => exact h0
  | succ n ih =>
    exact hstep n (Nat.lt_succ_self n) _ (ih (fun i hi s hs => hstep i (Nat.lt_succ_of_lt hi) s hs))

/-- The `col` loop of `init_matrix` for one row: the cells of the row are
filled from consecutive calls of `rand`. -/
theorem init_row (N : Nat) (rand : Nat → Nat) (row : Nat) (st0 : Matrix × Nat) :
    (forLoop (fun col (st : Matrix × Nat) =>
        (st.1.set row col ((rand st.2 % 1000) % U64), st.2 + 1)) N st0).2 = st0.2 + N ∧
    ∀ x y,
      (x = row ∧ y < N →
        (forLoop (fun col (st : Matrix × Nat) =>
          (st.1.set row col ((rand st.2 % 1000) % U64), st.2 + 1)) N st0).1 x y
          = rand (st0.2 + y) % 1000) ∧
      (¬ (x = row ∧ y < N) →
        (forLoop (fun col (st : Matrix × Nat) =>
          (st.1.set row col ((rand st.2 % 1000) % U64), st.2 + 1)) N st0).1 x y
          = st0.1 x y) := by
  refine forLoop_inv
    (fun col (st : Matrix × Nat) => st.2 = st0.2 + col ∧ ∀ x y,
      (x = row ∧ y < col → st.1 x y = rand (st0.2 + y) % 1000) ∧
      (¬ (x = row ∧ y < col) → st.1 x y = st0.1 x y))
    _ N st0 ⟨rfl, fun x y => ⟨fun h => absurd h.2 (Nat.not_lt_zero y), fun _ => rfl⟩⟩ ?_
  rintro col _ st ⟨h2, h1⟩
  refine ⟨by show st.2 + 1 = _; omega, fun x y => ⟨?_, ?_⟩⟩
  · rintro ⟨hx, hy⟩
    show Matrix.set st.1 row col ((rand st.2 % 1000) % U64) x y = _
    by_cases hyc : y = col
    · have hlt : rand (st0.2 + col) % 1000 < U64 :=
        Nat.lt_trans (Nat.mod_lt _ (by decide)) (by decide)
      simp only [Matrix.set, hx, hyc, and_self, if_true, h2]
      exact Nat.mod_eq_of_lt hlt
    · have hne : ¬ (x = row ∧ y = col) := fun h => hyc h.2
      simp only [Matrix.set, hne, if_false]
      exact (h1 x y).1 ⟨hx, by omega⟩
  · intro hn
    show Matrix.set st.1 row col ((rand st.2 % 1000) % U64) x y = _
    have hne : ¬ (x = row ∧ y = col) := fun h => hn ⟨h.1, by omega⟩
    simp only [Matrix.set, hne, if_false]
    exact (h1 x y).2 (fun h => hn ⟨h.1, by omega⟩)

/-- C13: after `init_matrix(mat)`, whatever the stream `rand` of values
returned by `rand()`, the number `calls` of calls made before and the prior
contents of `mat`, every cell `mat[row][col]` with `row, col` in `[0, N)`
holds the value of call number `calls + row * N + col` reduced modulo `1000`,
hence a value below `1000`, and `N * N` calls have been made: one call per
cell, in row-major order. -/
theorem init_matrix_contract (N : Nat) (rand : Nat → Nat) (mat : Matrix) (calls : Nat)
    (row col : Nat) (hrow : row < N) (hcol : col < N) :
    (init_matrix N rand mat calls).1 row col = rand (calls + row * N + col) % 1000 ∧
    (init_matrix N rand mat calls).1 row col < 1000 ∧
    (init_matrix N rand mat calls).2 = calls + N * N := by
  have h := forLoop_inv
    (fun r (st : Matrix × Nat) => st.2 = calls + r * N ∧ ∀ x y,
      (x < r ∧ y < N → st.1 x y = rand (calls + x * N + y) % 1000) ∧
      (¬ (x < r ∧ y < N) → st.1 x y = mat x y))
    (fun r st => forLoop (fun c (st : Matrix × Nat) =>
        (st.1.set r c ((rand st.2 % 1000) % U64), st.2 + 1)) N st)
    N (mat, calls)
    ⟨by simp, fun x y => ⟨fun h => absurd h.1 (Nat.not_lt_zero x), fun _ => rfl⟩⟩
    (by
      rintro r _ st ⟨h2, h1⟩
      obtain ⟨hr2, hr1⟩ := init_row N rand r st
      refine ⟨by rw [hr2, h2, Nat.succ_mul]; omega, fun x y => ⟨?_, ?_⟩⟩
      · rintro ⟨hx, hy⟩
        by_cases hxr : x = r
        · rw [(hr1 x y).1 ⟨hxr, hy⟩, h2, hxr]
        · rw [(hr1 x y).2 (fun h => hxr h.1)]
          exact (h1 x y).1 ⟨by omega, hy⟩
      · intro hn
        rw [(hr1 x y).2 (fun h => hn ⟨by omega, h.2⟩)]
        exact (h1 x y).2 (fun h => hn ⟨by omega, h.2⟩))
  have hcell : (init_matrix N rand mat calls).1 row col = rand (calls + row * N + col) % 1000 :=
    (h.2 row col).1 ⟨hrow, hcol⟩
  refine ⟨hcell, ?_, h.1⟩
  rw [hcell]
  exact Nat.mod_lt _ (by decide)

theorem init_matrix_contract_witness :
    (1 < 2 ∧ 0 < 2) ∧
    ((init_matrix 2 (fun n => 1000 * n + n) (constMat 5) 7).1 1 0
        = (fun n => 1000 * n + n) (7 + 1 * 2 + 0) % 1000 ∧
      (init_matrix 2 (fun n => 1000 * n + n) (constMat 5) 7).1 1 0 < 1000 ∧
      (init_matrix 2 (fun n => 1000 * n + n) (constMat 5) 7).2 = 7 + 2 * 2) :=
  ⟨by decide,
    init_matrix_contract 2 (fun n => 1000 * n + n) (constMat 5) 7 1 0 (by decide) (by decide)⟩

/-! ## The status of the comparator as a count -/

theorem countP_range_eq_sum (A C : Matrix) (r n : Nat) :
    (List.range n).countP (fun c => decide (C r c ≠ A r c))
      = ∑ c in Finset.range n, if C r c ≠ A r c then 1 else 0 := by
  induction n with
  | zero => simp
  | succ n ih =>
    rw [List.range_succ, List.countP_append, ih, Finset.sum_range_succ]
    by_cases h : C r n = A r n <;> simp [List.countP_cons, h]

/-- The status after the rows `0, ..., n - 1`, when `B` matches `A` in every
cell: minus the number of mismatches of `C` in these rows, as an `int8_t`. -/
theorem status_rows (N : Nat) (A B C : Matrix)
    (hB : ∀ i, i < N → ∀ j, j < N → B i j = A i j) (n : Nat) (hn : n ≤ N) :
    (forLoop (fun row st => scanRow A B C row (List.range N) st) n
        ⟨SYSTEM_SUCCESS, []⟩).status
      = toInt8 (-((∑ r in Finset.range n, ∑ c in Finset.range N,
          if C r c ≠ A r c then 1 else 0 : Nat) : Int)) := by
  induction n with
  | zero => simp [forLoop, toInt8, SYSTEM_SUCCESS]
  | succ n ih =>
    have ih' := ih (Nat.le_of_succ_le hn)
    show (scanRow A B C n (List.range N) _).status = _
    have hr := toInt8_range (-((∑ r in Finset.range n, ∑ c in Finset.range N,
          if C r c ≠ A r c then 1 else 0 : Nat) : Int))
    rw [← ih'] at hr
    rw [scanRow_status_of_match A B C n (List.range N) _ hr.1 hr.2
      (fun c hc => hB n (by omega) c (List.mem_range.1 hc)), ih', countP_range_eq_sum,
      Finset.sum_range_succ]
    generalize (∑ r in Finset.range n, ∑ c in Finset.range N,
      if C r c ≠ A r c then 1 else 0) = S
    generalize (∑ c in Finset.range N, if C n c ≠ A n c then 1 else 0) = k
    unfold toInt8
    push_cast
    omega

/-- C19: when `other1` equals `reference` in every cell, the status returned
by `comp_Result` is `-k` converted to `int8_t`, where `k` is the number of
cells in which `other2` differs from `reference`: it lies in `[-128, 127]`
and is congruent to `-k` modulo `256`; it is `SYSTEM_SUCCESS` exactly when `k`
is a multiple of `256`. -/
theorem comp_Result_status_count (N : Nat) (reference other1 other2 : Matrix)
    (h1 : ∀ i, i < N → ∀ j, j < N → other1 i j = reference i j) :
    (comp_Result N reference other1 other2).status
        = toInt8 (-(mismatchCount N reference other2 : Int)) ∧
    (-128 ≤ (comp_Result N reference other1 other2).status ∧
      (comp_Result N reference other1 other2).status ≤ 127 ∧
      ((comp_Result N reference other1 other2).status
        + (mismatchCount N reference other2 : Int)) % 256 = 0) ∧
    ((comp_Result N reference other1 other2).status = SYSTEM_SUCCESS ↔
      256 ∣ mismatchCount N reference other2) := by
  have h : (comp_Result N reference other1 other2).status
      = toInt8 (-(mismatchCount N reference other2 : Int)) :=
    status_rows N reference other1 other2 h1 N (le_refl N)
  rw [h, Nat.dvd_iff_mod_eq_zero]
  generalize mismatchCount N reference other2 = k
  unfold toInt8 SYSTEM_SUCCESS
  refine ⟨rfl, ⟨?_, ?_, ?_⟩, ?_⟩ <;> omega

theorem comp_Result_status_count_witness :
    (∀ i, i < 2 → ∀ j, j < 2 → mA i j = mA i j) ∧
    ((comp_Result 2 mA mA mB).status = toInt8 (-(mismatchCount 2 mA mB : Int)) ∧
    (-128 ≤ (comp_Result 2 mA mA mB).status ∧
      (comp_Result 2 mA mA mB).status ≤ 127 ∧
      ((comp_Result 2 mA mA mB).status + (mismatchCount 2 mA mB : Int)) % 256 = 0) ∧
    ((comp_Result 2 mA mA mB).status = SYSTEM_SUCCESS ↔ 256 ∣ mismatchCount 2 mA mB)) :=
  ⟨by decide, comp_Result_status_count 2 mA mA mB (by decide)⟩

/-! ## The cells visited by the tile loops -/

/-- A loop with a wrapping counter whose counter takes the values
`seq 0, ..., seq (m - 1)` before its condition fails at `seq m`, and whose
iteration number `k` returns and takes `P k` to `P (k + 1)`, returns for every
fuel above the number of iterations left and ends in `P m`. -/
theorem whileLoop_inv {σ : Type} (cond : Nat → Bool) (next : Nat → Nat)
    (body : Nat → σ → Option σ) (P : Nat → σ → Prop) (seq : Nat → Nat) (m : Nat)
    (hcond : ∀ k, k < m → cond (seq k) = true) (hexit : cond (seq m) = false)
    (hnext : ∀ k, k < m → next (seq k) = seq (k + 1))
    (hbody : ∀ k, k < m → ∀ s, P k s → ∃ s', body (seq k) s = some s' ∧ P (k + 1) s') :
    ∀ fuel k, k ≤ m → m - k < fuel → ∀ s, P k s →
      ∃ s', whileLoop cond next body fuel (seq k) s = some s' ∧ P m s' := by
  intro fuel
  induction fuel with
  | zero => intro k _ hf; omega
  | succ fuel ih =>
    intro k hk hf s hP
    rcases Nat.lt_or_ge k m with hlt | hge
    · obtain ⟨s₁, hs₁, hP₁⟩ := hbody k hlt s hP
      obtain ⟨s₂, hs₂, hP₂⟩ := ih (k + 1) hlt (by omega) s₁ hP₁
      refine ⟨s₂, ?_, hP₂⟩
      simp only [whileLoop, hcond k hlt, if_true, hs₁, Option.bind, hnext k hlt, hs₂]
    · have hkm : k = m := Nat.le_antisymm hk hge
      subst hkm
      exact ⟨s, by simp [whileLoop, hexit], hP⟩

/-- The `blockRow` and `blockCol` loops, from `a` up to `a + BS` clamped to
`N`, with an invariant indexed by the number of iterations done. -/
theorem tileLoop_inv {σ : Type} (body : Nat → σ → Option σ) (P : Nat → σ → Prop)
    (a BS N : Nat) (ha : a + BS < U64)
    (hbody : ∀ k, k < BS → a + k < N → ∀ s, P k s →
      ∃ s', body (a + k) s = some s' ∧ P (k + 1) s')
    (fuel : Nat) (hf : N < fuel) (s : σ) (h0 : P 0 s) :
    ∃ s', whileLoop (fun i => decide (i < (a + BS) % U64) && decide (i < N))
        (fun i => (i + 1) % U64) body fuel a s = some s' ∧
      P (min (a + BS) N - a) s' := by
  have hmod : (a + BS) % U64 = a + BS := Nat.mod_eq_of_lt ha
  rw [hmod]
  exact whileLoop_inv
    (fun i => decide (i < a + BS) && decide (i < N)) (fun i => (i + 1) % U64) body P
    (fun k => a + k) (min (a + BS) N - a)
    (fun k hk => by
      have h1 : a + k < a + BS := by omega
      have h2 : a + k < N := by omega
      simp [h1, h2])
    (by
      rcases Nat.lt_or_ge (a + (min (a + BS) N - a)) N with h | h
      · have h1 : ¬ (a + (min (a + BS) N - a) < a + BS) := by omega
        simp [h1]
      · have h1 : ¬ (a + (min (a + BS) N - a) < N) := by omega
        simp [h1])
    (fun k hk => by
      show (a + k + 1) % U64 = a + (k + 1)
      rw [Nat.mod_eq_of_lt (by omega)]
      rfl)
    (fun k hk s hP => hbody k (by omega) (by omega) s hP)
    fuel 0 (Nat.zero_le _) (by omega) s h0

/-- The `row` and `col` loops, from `0` in steps of `BS` while below `N`,
with an invariant indexed by the number of tiles done. -/
theorem strideLoop_inv {σ : Type} (body : Nat → σ → Option σ) (P : Nat → σ → Prop)
    (N BS : Nat) (hBS : 0 < BS) (hnw : NoWrap N BS)
    (hbody : ∀ k, k * BS < N → ∀ s, P k s →
      ∃ s', body (k * BS) s = some s' ∧ P (k + 1) s')
    (fuel : Nat) (hf : N < fuel) (s : σ) (h0 : P 0 s) :
    ∃ s', whileLoop (fun i => decide (i < N)) (fun i => (i + BS) % U64) body fuel 0 s
        = some s' ∧ P (tiles N BS) s' := by
  have hm := tiles_le N BS hBS
  obtain ⟨s', hs', hP⟩ := whileLoop_inv
    (fun i => decide (i < N)) (fun i => (i + BS) % U64) body P
    (fun k => k * BS) (tiles N BS)
    (fun k hk => by simpa using (lt_tiles_iff N BS k hBS).1 hk)
    (by
      have h : ¬ (tiles N BS * BS < N) :=
        fun h => Nat.lt_irrefl _ ((lt_tiles_iff N BS _ hBS).2 h)
      simpa using Nat.le_of_not_lt h)
    (fun k hk => by
      show (k * BS + BS) % U64 = (k + 1) * BS
      rw [Nat.mod_eq_of_lt (hnw k ((lt_tiles_iff N BS k hBS).1 hk)), Nat.succ_mul])
    (fun k hk s hP => hbody k ((lt_tiles_iff N BS k hBS).1 hk) s hP)
    fuel 0 (Nat.zero_le _) (by omega) s h0
  exact ⟨s', by simpa using hs', hP⟩

theorem Visits.none (R : Nat × Nat → Prop) (l : List (Nat × Nat)) (hR : ∀ p, ¬ R p) :
    Visits R l l :=
  ⟨[], by simp, List.nodup_nil, fun p => ⟨fun h => by simp at h, fun h => absurd h (hR p)⟩⟩

theorem Visits.of_iff {R R' : Nat × Nat → Prop} {l l' : List (Nat × Nat)}
    (h : Visits R l l') (hR : ∀ p, R p ↔ R' p) : Visits R' l l' := by
  obtain ⟨t, ht, hnd, hmem⟩ := h
  exact ⟨t, ht, hnd, fun p => (hmem p).trans (hR p)⟩

theorem Visits.single (q : Nat × Nat) (l : List (Nat × Nat)) :
    Visits (fun p => p = q) l (l ++ [q]) :=
  ⟨[q], rfl, List.nodup_singleton q, fun p => by simp⟩

theorem Visits.append {R₁ R₂ : Nat × Nat → Prop} {l l₁ l₂ : List (Nat × Nat)}
    (h₁ : Visits R₁ l l₁) (h₂ : Visits R₂ l₁ l₂) (hdisj : ∀ p, R₁ p → R₂ p → False) :
    Visits (fun p => R₁ p ∨ R₂ p) l l₂ := by
  obtain ⟨t₁, ht₁, hnd₁, hmem₁⟩ := h₁
  obtain ⟨t₂, ht₂, hnd₂, hmem₂⟩ := h₂
  refine ⟨t₁ ++ t₂, by rw [ht₂, ht₁, List.append_assoc], ?_, fun p => ?_⟩
  · exact List.Nodup.append hnd₁ hnd₂
      (fun p hp₁ hp₂ => hdisj p ((hmem₁ p).1 hp₁) ((hmem₂ p).1 hp₂))
  · rw [List.mem_append, hmem₁, hmem₂]

/-- The `blockCol` loop of one row `i` of a tile that starts at column `b`
visits the cells of the row in the columns of the tile, each once. -/
theorem cols_visits (i b BS N : Nat) (hb : b + BS < U64) (fuel : Nat) (hf : N < fuel)
    (l : List (Nat × Nat)) :
    ∃ l', whileLoop
        (fun blockCol => decide (blockCol < (b + BS) % U64) && decide (blockCol < N))
        (fun blockCol => (blockCol + 1) % U64)
        (fun blockCol (l : List (Nat × Nat)) => some (l ++ [(i, blockCol)])) fuel b l
        = some l' ∧
      Visits (fun p => p.1 = i ∧ b ≤ p.2 ∧ p.2 < b + BS ∧ p.2 < N) l l' := by
  obtain ⟨l', hl', hV⟩ := tileLoop_inv
    (fun blockCol (l : List (Nat × Nat)) => some (l ++ [(i, blockCol)]))
    (fun k l' => Visits (fun p => p.1 = i ∧ b ≤ p.2 ∧ p.2 < b + k) l l')
    b BS N hb
    (fun k _ _ s hP => ⟨_, rfl, by
      refine (hP.append (Visits.single (i, b + k) s) ?_).of_iff (fun p => ?_)
      · rintro p ⟨_, _, h⟩ rfl
        exact Nat.lt_irrefl _ h
      · constructor
        · rintro (⟨h1, h2, h3⟩ | rfl)
          · exact ⟨h1, h2, by omega⟩
          · exact ⟨rfl, Nat.le_add_right b k, by show b + k < b + (k + 1); omega⟩
        · rintro ⟨h1, h2, h3⟩
          by_cases h : p.2 = b + k
          · right
            exact Prod.ext h1 h
          · left
            exact ⟨h1, h2, by omega⟩⟩)
    fuel hf l (Visits.none _ l (fun p h => by omega))
  refine ⟨l', hl', hV.of_iff (fun p => ?_)⟩
  constructor
  · rintro ⟨h1, h2, h3⟩
    exact ⟨h1, h2, by omega, by omega⟩
  · rintro ⟨h1, h2, h3, h4⟩
    exact ⟨h1, h2, by omega⟩

/-- The `blockRow` loop of the tile that starts at row `a` and column `b`
visits the cells of the tile, each once. -/
theorem rows_visits (a b BS N : Nat) (ha : a + BS < U64) (hb : b + BS < U64)
    (fuel : Nat) (hf : N < fuel) (l : List (Nat × Nat)) :
    ∃ l', whileLoop
        (fun blockRow => decide (blockRow < (a + BS) % U64) && decide (blockRow < N))
        (fun blockRow => (blockRow + 1) % U64)
        (fun blockRow (l : List (Nat × Nat)) =>
          whileLoop
            (fun blockCol => decide (blockCol < (b + BS) % U64) && decide (blockCol < N))
            (fun blockCol => (blockCol + 1) % U64)
            (fun blockCol (l : List (Nat × Nat)) => some (l ++ [(blockRow, blockCol)]))
            fuel b l)
        fuel a l = some l' ∧
      Visits (fun p => (a ≤ p.1 ∧ p.1 < a + BS ∧ p.1 < N) ∧
        (b ≤ p.2 ∧ p.2 < b + BS ∧ p.2 < N)) l l' := by
  obtain ⟨l', hl', hV⟩ := tileLoop_inv
    (fun blockRow (l : List (Nat × Nat)) =>
      whileLoop
        (fun blockCol => decide (blockCol < (b + BS) % U64) && decide (blockCol < N))
        (fun blockCol => (blockCol + 1) % U64)
        (fun blockCol (l : List (Nat × Nat)) => some (l ++ [(blockRow, blockCol)]))
        fuel b l)
    (fun k l' => Visits (fun p => (a ≤ p.1 ∧ p.1 < a + k) ∧
      (b ≤ p.2 ∧ p.2 < b + BS ∧ p.2 < N)) l l')
    a BS N ha
    (fun k _ _ s hP => by
      obtain ⟨s', hs', hV'⟩ := cols_visits (a + k) b BS N hb fuel hf s
      refine ⟨s', hs', (hP.append hV' ?_).of_iff (fun p => ?_)⟩
      · rintro p ⟨⟨_, h⟩, _⟩ ⟨h', _⟩
        omega
      · constructor
        · rintro (⟨⟨h1, h2⟩, h3⟩ | ⟨h1, h2⟩)
          · exact ⟨⟨h1, by omega⟩, h3⟩
          · exact ⟨⟨by omega, by omega⟩, h2⟩
        · rintro ⟨⟨h1, h2⟩, h3⟩
          by_cases h : p.1 = a + k
          · exact Or.inr ⟨h, h3⟩
          · exact Or.inl ⟨⟨h1, by omega⟩, h3⟩)
    fuel hf l (Visits.none _ l (fun p h => by omega))
  refine ⟨l', hl', hV.of_iff (fun p => ?_)⟩
  constructor
  · rintro ⟨⟨h1, h2⟩, h3⟩
    exact ⟨⟨h1, by omega, by omega⟩, h3⟩
  · rintro ⟨⟨h1, h2, h3⟩, h4⟩
    exact ⟨⟨h1, by omega⟩, h4⟩

/-- The `col` loop of the row of tiles that starts at row `a` visits the
cells of these rows in all columns below `N`, each once. -/
theorem colTiles_visits (a BS N : Nat) (hBS : 0 < BS) (hnw : NoWrap N BS)
    (ha : a + BS < U64) (fuel : Nat) (hf : N < fuel) (l : List (Nat × Nat)) :
    ∃ l', whileLoop (fun col => decide (col < N)) (fun col => (col + BS) % U64)
        (fun col (l : List (Nat × Nat)) =>
          whileLoop
            (fun blockRow => decide (blockRow < (a + BS) % U64) && decide (blockRow < N))
            (fun blockRow => (blockRow + 1) % U64)
            (fun blockRow (l : List (Nat × Nat)) =>
              whileLoop
                (fun blockCol => decide (blockCol < (col + BS) % U64) && decide (blockCol < N))
                (fun blockCol => (blockCol + 1) % U64)
                (fun blockCol (l : List (Nat × Nat)) => some (l ++ [(blockRow, blockCol)]))
                fuel col l)
            fuel a l)
        fuel 0 l = some l' ∧
      Visits (fun p => (a ≤ p.1 ∧ p.1 < a + BS ∧ p.1 < N) ∧ p.2 < N) l l' := by
  obtain ⟨l', hl', hV⟩ := strideLoop_inv
    (fun col (l : List (Nat × Nat)) =>
      whileLoop
        (fun blockRow => decide (blockRow < (a + BS) % U64) && decide (blockRow < N))
        (fun blockRow => (blockRow + 1) % U64)
        (fun blockRow (l : List (Nat × Nat)) =>
          whileLoop
            (fun blockCol => decide (blockCol < (col + BS) % U64) && decide (blockCol < N))
            (fun blockCol => (blockCol + 1) % U64)
            (fun blockCol (l : List (Nat × Nat)) => some (l ++ [(blockRow, blockCol)]))
            fuel col l)
        fuel a l)
    (fun k l' => Visits (fun p => (a ≤ p.1 ∧ p.1 < a + BS ∧ p.1 < N) ∧
      (p.2 < k * BS ∧ p.2 < N)) l l')
    N BS hBS hnw
    (fun k hk s hP => by
      obtain ⟨s', hs', hV'⟩ := rows_visits a (k * BS) BS N ha (hnw k hk) fuel hf s
      have e : (k + 1) * BS = k * BS + BS := Nat.succ_mul k BS
      refine ⟨s', hs', (hP.append hV' ?_).of_iff (fun p => ?_)⟩
      · rintro p ⟨_, h, _⟩ ⟨_, h', _⟩
        omega
      · constructor
        · rintro (⟨h1, h2, h3⟩ | ⟨h1, h2, h3, h4⟩)
          · exact ⟨h1, by omega, h3⟩
          · exact ⟨h1, by omega, h4⟩
        · rintro ⟨h1, h2, h3⟩
          by_cases h : p.2 < k * BS
          · exact Or.inl ⟨h1, h, h3⟩
          · exact Or.inr ⟨h1, by omega, by omega, h3⟩)
    fuel hf l (Visits.none _ l (fun p h => by
      have h0 := h.2.1
      rw [Nat.zero_mul] at h0
      exact Nat.not_lt_zero _ h0))
  have hend : ¬ (tiles N BS * BS < N) :=
    fun h => Nat.lt_irrefl _ ((lt_tiles_iff N BS _ hBS).2 h)
  refine ⟨l', hl', hV.of_iff (fun p => ?_)⟩
  constructor
  · rintro ⟨h1, _, h3⟩
    exact ⟨h1, h3⟩
  · rintro ⟨h1, h2⟩
    exact ⟨h1, by omega, h2⟩

/-- The four tile loops return for every fuel above `N` and visit the cells
of `[0, N) × [0, N)`, each once, when no tile bound wraps. -/
theorem tileVisits_visits (N BS : Nat) (hBS : 0 < BS) (hnw : NoWrap N BS)
    (fuel : Nat) (hf : N < fuel) :
    ∃ l, tileVisits fuel N BS = some l ∧ Visits (fun p => p.1 < N ∧ p.2 < N) [] l := by
  obtain ⟨l', hl', hV⟩ := strideLoop_inv
    (fun row (l : List (Nat × Nat)) =>
      whileLoop (fun col => decide (col < N)) (fun col => (col + BS) % U64)
        (fun col (l : List (Nat × Nat)) =>
          whileLoop
            (fun blockRow => decide (blockRow < (row + BS) % U64) && decide (blockRow < N))
            (fun blockRow => (blockRow + 1) % U64)
            (fun blockRow (l : List (Nat × Nat)) =>
              whileLoop
                (fun blockCol => decide (blockCol < (col + BS) % U64) && decide (blockCol < N))
                (fun blockCol => (blockCol + 1) % U64)
                (fun blockCol (l : List (Nat × Nat)) => some (l ++ [(blockRow, blockCol)]))
                fuel col l)
            fuel row l)
        fuel 0 l)
    (fun k l' => Visits (fun p => (p.1 < k * BS ∧ p.1 < N) ∧ p.2 < N) [] l')
    N BS hBS hnw
    (fun k hk s hP => by
      obtain ⟨s', hs', hV'⟩ := colTiles_visits (k * BS) BS N hBS hnw (hnw k hk) fuel hf s
      have e : (k + 1) * BS = k * BS + BS := Nat.succ_mul k BS
      refine ⟨s', hs', (hP.append hV' ?_).of_iff (fun p => ?_)⟩
      · rintro p ⟨⟨h, _⟩, _⟩ ⟨⟨h', _⟩, _⟩
        omega
      · constructor
        · rintro (⟨⟨h1, h2⟩, h3⟩ | ⟨⟨h1, h2, h3⟩, h4⟩)
          · exact ⟨⟨by omega, h2⟩, h3⟩
          · exact ⟨⟨by omega, h3⟩, h4⟩
        · rintro ⟨⟨h1, h2⟩, h3⟩
          by_cases h : p.1 < k * BS
          · exact Or.inl ⟨⟨h, h2⟩, h3⟩
          · exact Or.inr ⟨⟨by omega, by omega, h2⟩, h3⟩)
    fuel hf [] (Visits.none _ [] (fun p h => by
      have h0 := h.1.1
      rw [Nat.zero_mul] at h0
      exact Nat.not_lt_zero _ h0))
  have hend : ¬ (tiles N BS * BS < N) :=
    fun h => Nat.lt_irrefl _ ((lt_tiles_iff N BS _ hBS).2 h)
  refine ⟨l', hl', hV.of_iff (fun p => ?_)⟩
  constructor
  · rintro ⟨⟨_, h2⟩, h3⟩
    exact ⟨h2, h3⟩
  · rintro ⟨h1, h2⟩
    exact ⟨⟨by omega, h1⟩, h2⟩

/-- C17: for every `N`, `BS ≥ 1` and `N + BS < 2 ^ 64`, the four tile loops of
`blocked_MatMul` terminate (the kernel returns for every fuel above `N`), the
body of the `blockCol` loop, which zeroes and accumulates
`C[blockRow][blockCol]`, runs at each pair of `[0, N) × [0, N)` exactly once
and at no pair with an index `≥ N`: the list of the pairs visited has no
repetition, holds exactly the pairs of `[0, N) × [0, N)` and has `N * N`
entries. -/
theorem blocked_MatMul_visits (N BS : Nat) (A B C : Matrix) (hBS : 1 ≤ BS)
    (hsum : N + BS < 2 ^ 64) (fuel : Nat) (hfuel : N < fuel) :
    blocked_MatMul fuel N BS A B C = tileLoops fuel N BS (dotCell N A B) C ∧
    (∃ R, blocked_MatMul fuel N BS A B C = some R) ∧
    ∃ l, tileVisits fuel N BS = some l ∧
      l.Nodup ∧
      (∀ r c, (r, c) ∈ l ↔ r < N ∧ c < N) ∧
      l.length = N * N := by
  have hnw : NoWrap N BS := noWrap_of_add_le N BS (Nat.le_of_lt hsum)
  obtain ⟨R, hR, _⟩ := blocked_fills N BS A B C hBS hnw fuel hfuel
  obtain ⟨l, hl, t, ht, hnd, hmem⟩ := tileVisits_visits N BS hBS hnw fuel hfuel
  rw [List.nil_append] at ht
  subst ht
  refine ⟨rfl, ⟨R, hR⟩, l, hl, hnd, fun r c => hmem (r, c), ?_⟩
  · have hperm : l.toFinset = Finset.range N ×ˢ Finset.range N := by
      ext p
      rw [List.mem_toFinset, hmem, Finset.mem_product, Finset.mem_range, Finset.mem_range]
    rw [← List.toFinset_card_of_nodup hnd, hperm, Finset.card_product, Finset.card_range]

theorem blocked_MatMul_visits_witness :
    (1 ≤ 2 ∧ 3 + 2 < 2 ^ 64 ∧ 3 < 4) ∧
    (blocked_MatMul 4 3 2 mA mB mC = tileLoops 4 3 2 (dotCell 3 mA mB) mC ∧
    (∃ R, blocked_MatMul 4 3 2 mA mB mC = some R) ∧
    ∃ l, tileVisits 4 3 2 = some l ∧
      l.Nodup ∧
      (∀ r c, (r, c) ∈ l ↔ r < 3 ∧ c < 3) ∧
      l.length = 3 * 3) :=
  ⟨by decide,
    blocked_MatMul_visits 3 2 mA mB mC (by decide) (by decide) 4 (by decide)⟩

end MatrixMul
